import Mathlib

/-!
Shallow embedding of `src/PersistentTrie.cpp`, a persistent (path-copying)
trie mapping strings to values of heterogeneous types.

Two models of the same source are developed:

* a functional term model: `TrieNode Ty Val` mirrors the C++ classes
  `TrieNode` / `TrieValueNode<T>`; a `std::shared_ptr<const TrieNode>` is an
  `Option (TrieNode Ty Val)` with the null pointer as `none`; the
  heterogeneous template parameter `T` of `TrieValueNode<T>` is a tag `t : Ty`
  together with a payload in `Val t`, and `dynamic_cast<TrieValueNode<T>*>`
  is a decidable tag comparison.  `Trie.remove` returns `Except Unit _`
  because its recursive lambda dereferences `cur` (`cur->children` at the
  terminal depth, `cur->copy()` at inner depths) before any null check:
  `.error ()` marks the would-be null dereference.

* a store-indexed heap model (`HeapNode`, `searchH`, `insertAuxH`,
  `removeAuxH`): a `shared_ptr` is an `Option Nat` index into a list of
  heap cells, and node construction appends a cell to the store.  This model
  makes the immutability of previously constructed nodes a provable fact
  rather than a by-construction triviality of the term model.

Keys are `List Char`, mirroring `std::string` as a finite character
sequence.  The `children` map (`std::unordered_map<char, ...>`) is an
association list; the program only looks up single keys, point-updates
(`children[k] = next`), point-erases (`children.erase(k)`) and tests
emptiness, all of which are order-independent, and the keys of every map the
program builds are pairwise distinct.
-/

set_option autoImplicit false

namespace PersistentTrie

/-! ### Children association lists (std::unordered_map<char, SPT<const TrieNode>>) -/

/-- `find(k)` / `at(k)` combined: the value stored at key `k`, if present. -/
def lookupChild {α : Type} : List (Char × α) → Char → Option α
  | [], _ => none
  | (c, a) :: rest, k => if c = k then some a else lookupChild rest k

/-- `children[k] = a`: assign through `operator[]`, replacing the entry at
`k` if present and appending it otherwise. -/
def setChild {α : Type} : List (Char × α) → Char → α → List (Char × α)
  | [], k, a => [(k, a)]
  | (c, b) :: rest, k, a => if c = k then (c, a) :: rest else (c, b) :: setChild rest k a

/-- `children.erase(k)`: drop the entry at key `k` (maps hold at most one). -/
def eraseChild {α : Type} : List (Char × α) → Char → List (Char × α)
  | [], _ => []
  | (c, b) :: rest, k => if c = k then rest else (c, b) :: eraseChild rest k

/-- The list of keys of a children map. -/
def childKeys {α : Type} (cs : List (Char × α)) : List Char := cs.map Prod.fst

/-! ### Functional term model of `TrieNode` / `TrieValueNode<T>` -/

/-- A trie node.  `plain` is the base class `TrieNode`; `valueNode` is
`TrieValueNode<T>` with its owned value.  Every constructor of the C++
classes leaves `isEndOfWord` at `false` for a plain `TrieNode` and sets it to
`true` in `TrieValueNode`, and no code path ever writes the flag afterwards,
so the flag is represented as a function of the node's shape. -/
inductive TrieNode (Ty : Type) (Val : Ty → Type) : Type where
  | plain (children : List (Char × Option (TrieNode Ty Val)))
  | valueNode (children : List (Char × Option (TrieNode Ty Val))) (t : Ty) (v : Val t)

variable {Ty : Type} {Val : Ty → Type}

/-- The `children` field. -/
def TrieNode.children : TrieNode Ty Val → List (Char × Option (TrieNode Ty Val))
  | .plain cs => cs
  | .valueNode cs _ _ => cs

/-- The `isEndOfWord` field: `false` on every plain node the program builds,
`true` on every value node (set in the `TrieValueNode` constructors). -/
def TrieNode.isEndOfWord : TrieNode Ty Val → Bool
  | .plain _ => false
  | .valueNode _ _ _ => true

/-- `TrieNode::copy` / `TrieValueNode::copy`: the virtual shallow clone.
`TrieNode::copy` rebuilds a plain node from its children (the rebuilt flag is
`false`, which is also the flag of every plain node the program constructs);
`TrieValueNode::copy` passes children and value through. -/
def TrieNode.copy : TrieNode Ty Val → TrieNode Ty Val
  | .plain cs => .plain cs
  | .valueNode cs t v => .valueNode cs t v

/-- The stored value together with its runtime type tag, if the node is a
`TrieValueNode`. -/
def TrieNode.nodeValue : TrieNode Ty Val → Option (Sigma Val)
  | .plain _ => none
  | .valueNode _ t v => some ⟨t, v⟩

/-- Replace the (mutable, freshly cloned) node's children field, keeping its
dynamic class and value. -/
def withChildren : TrieNode Ty Val → List (Char × Option (TrieNode Ty Val)) → TrieNode Ty Val
  | .plain _, cs => .plain cs
  | .valueNode _ t v, cs => .valueNode cs t v

/-- `dynamic_cast<const TrieValueNode<T>*>`: succeeds exactly when the node
is a value node whose stored type tag equals the requested one. -/
def castValue [DecidableEq Ty] : TrieNode Ty Val → (t : Ty) → Option (Val t)
  | .plain _, _ => none
  | .valueNode _ u v, t => if h : u = t then some (h ▸ v) else none

/-- The descent loop of `Trie::search` (lines 60–67): follow one `children`
edge per key character; a null `cur` or a missing edge yields null. -/
def searchLoop : Option (TrieNode Ty Val) → List Char → Option (TrieNode Ty Val)
  | cur, [] => cur
  | cur, k :: rest =>
    match cur with
    | none => none
    | some n =>
      match lookupChild n.children k with
      | some sp => searchLoop sp rest
      | none => none

/-- `Trie::search<T>` from an arbitrary node pointer: walk the key, then
require a successful `dynamic_cast` to `TrieValueNode<T>` and `isEndOfWord`. -/
def nodeSearch [DecidableEq Ty] (cur : Option (TrieNode Ty Val)) (key : List Char)
    (t : Ty) : Option (Val t) :=
  match searchLoop cur key with
  | none => none
  | some n => if n.isEndOfWord then castValue n t else none

/-- The recursive lambda of `Trie::insert` (lines 80–106).  At the terminal
depth it builds a `TrieValueNode<T>` carrying the existing node's children,
if any; at inner depths it clones the existing node (or starts a fresh plain
node) and redirects its edge for the current character at the subtree built
one level deeper. -/
def insertAux (t : Ty) (x : Val t) : List Char → Option (TrieNode Ty Val) → TrieNode Ty Val
  | [], cur =>
    match cur with
    | some n => .valueNode n.children t x
    | none => .valueNode [] t x
  | k :: rest, cur =>
    let curNext : Option (TrieNode Ty Val) :=
      match cur with
      | some n => (lookupChild n.children k).join
      | none => none
    let next := insertAux t x rest curNext
    let ret : TrieNode Ty Val :=
      match cur with
      | some n => n.copy
      | none => .plain []
    withChildren ret (setChild ret.children k (some next))

/-- The recursive lambda of `Trie::remove` (lines 119–146).  The lambda
dereferences `cur` before any null test (`cur->children` at the terminal
depth, `cur->copy()` at inner depths), so a null `cur` is the error case.
`.ok none` is the lambda returning `nullptr` (key absent); on the way back
up a dead child (empty children, not end of word) is pruned from the clone,
otherwise the clone's edge is redirected at the rebuilt child. -/
def removeAux : List Char → Option (TrieNode Ty Val) → Except Unit (Option (TrieNode Ty Val))
  | [], cur =>
    match cur with
    | none => .error ()
    | some n => .ok (some (.plain n.children))
  | k :: rest, cur =>
    match cur with
    | none => .error ()
    | some n =>
      match lookupChild n.children k with
      | none => .ok none
      | some sp =>
        match removeAux rest sp with
        | .error e => .error e
        | .ok none => .ok none
        | .ok (some next) =>
          if next.children.isEmpty && !next.isEndOfWord then
            .ok (some (withChildren n.copy (eraseChild n.copy.children k)))
          else
            .ok (some (withChildren n.copy (setChild n.copy.children k (some next))))

/-- The class `Trie`: a version handle holding a possibly null root. -/
structure Trie (Ty : Type) (Val : Ty → Type) : Type where
  root : Option (TrieNode Ty Val)

/-- `Trie()`: the empty version, with null root. -/
def Trie.empty : Trie Ty Val := ⟨none⟩

/-- `Trie::search<T>` (lines 56–75). -/
def Trie.search [DecidableEq Ty] (v : Trie Ty Val) (key : List Char) (t : Ty) :
    Option (Val t) :=
  nodeSearch v.root key t

/-- `Trie::insert<T>` (lines 77–111): run the recursive lambda from the root
and wrap the (always non-null) result as the new version's root. -/
def Trie.insert (v : Trie Ty Val) (key : List Char) (t : Ty) (x : Val t) : Trie Ty Val :=
  ⟨some (insertAux t x key v.root)⟩

/-- `Trie::remove` (lines 113–155): null root yields the empty version; a
null lambda result yields a version with the input's root; a dead rebuilt
root (empty children, not end of word) yields a null root; otherwise the
rebuilt root is the new version's root. -/
def Trie.remove (v : Trie Ty Val) (key : List Char) : Except Unit (Trie Ty Val) :=
  match v.root with
  | none => .ok ⟨none⟩
  | some r =>
    match removeAux key (some r) with
    | .error e => .error e
    | .ok none => .ok ⟨some r⟩
    | .ok (some n) =>
      if n.children.isEmpty && !n.isEndOfWord then .ok ⟨none⟩
      else .ok ⟨some n⟩

/-! ### Structural invariants of versions -/

/-- Well-formed node: children keys are pairwise distinct (an
`std::unordered_map` holds at most one entry per key), the node is not dead
(nonempty children or end of word), and every child pointer is non-null and
itself well-formed.  Every node reachable from a version the program can
build satisfies this. -/
inductive WFN : TrieNode Ty Val → Prop where
  | mk (n : TrieNode Ty Val)
      (nodup : (childKeys n.children).Nodup)
      (alive : n.children ≠ [] ∨ n.isEndOfWord = true)
      (nonnull : ∀ c, (c, (none : Option (TrieNode Ty Val))) ∉ n.children)
      (kids : ∀ c m, (c, some m) ∈ n.children → WFN m) :
      WFN n

/-- Well-formedness minus the node's own aliveness: what `removeAux` is able
to guarantee about the node it returns before its parent (or the top level of
`Trie::remove`) applies the pruning check. -/
def WFA (n : TrieNode Ty Val) : Prop :=
  (childKeys n.children).Nodup ∧
    (∀ c, (c, (none : Option (TrieNode Ty Val))) ∉ n.children) ∧
    ∀ c m, (c, some m) ∈ n.children → WFN m

/-- Well-formed version: the root, when non-null, is a well-formed node. -/
def WFT (v : Trie Ty Val) : Prop := ∀ r, v.root = some r → WFN r

/-- Nodes reachable from a version's root through child edges. -/
inductive ReachN (v : Trie Ty Val) : TrieNode Ty Val → Prop where
  | root (r : TrieNode Ty Val) : v.root = some r → ReachN v r
  | child (m : TrieNode Ty Val) (c : Char) (n : TrieNode Ty Val) :
      ReachN v m → (c, some n) ∈ m.children → ReachN v n

/-- Versions reachable from the empty version by finite sequences of
`insert` and (successful) `remove` operations. -/
inductive Reachable : Trie Ty Val → Prop where
  | empty : Reachable ⟨none⟩
  | ins (v : Trie Ty Val) (key : List Char) (t : Ty) (x : Val t) :
      Reachable v → Reachable (Trie.insert v key t x)
  | rem (v : Trie Ty Val) (key : List Char) (w : Trie Ty Val) :
      Reachable v → Trie.remove v key = .ok w → Reachable w

/-! ### Store-indexed heap model (for immutability of constructed nodes)

A `shared_ptr<const TrieNode>` is an `Option Nat`: `none` is the null
pointer, `some i` points at cell `i` of the store.  `make_shared` appends a
cell.  The operations mirror the same source lines as the term model. -/

/-- A heap cell: same shape as `TrieNode`, with child pointers as indices. -/
inductive HeapNode (Ty : Type) (Val : Ty → Type) : Type where
  | plain (children : List (Char × Option Nat))
  | valueNode (children : List (Char × Option Nat)) (t : Ty) (v : Val t)

/-- The `children` field of a heap cell. -/
def HeapNode.children : HeapNode Ty Val → List (Char × Option Nat)
  | .plain cs => cs
  | .valueNode cs _ _ => cs

/-- The `isEndOfWord` field of a heap cell. -/
def HeapNode.isEndOfWord : HeapNode Ty Val → Bool
  | .plain _ => false
  | .valueNode _ _ _ => true

/-- The virtual shallow clone on heap cells. -/
def HeapNode.copy : HeapNode Ty Val → HeapNode Ty Val
  | .plain cs => .plain cs
  | .valueNode cs t v => .valueNode cs t v

/-- `dynamic_cast<const TrieValueNode<T>*>` on a heap cell. -/
def HeapNode.castValue [DecidableEq Ty] : HeapNode Ty Val → (t : Ty) → Option (Val t)
  | .plain _, _ => none
  | .valueNode _ u v, t => if h : u = t then some (h ▸ v) else none

/-- Replace a freshly cloned heap cell's children field. -/
def heapWithChildren : HeapNode Ty Val → List (Char × Option Nat) → HeapNode Ty Val
  | .plain _, cs => .plain cs
  | .valueNode _ t v, cs => .valueNode cs t v

/-- `Trie::search<T>` against a store: follow one edge per character reading
cells from the store, then cast the landed cell.  A dangling index has no
C++ counterpart (a `shared_ptr` keeps its target alive): that branch yields
`none` and is unreachable for closed stores. -/
def searchH [DecidableEq Ty] (s : List (HeapNode Ty Val)) :
    Option Nat → List Char → (t : Ty) → Option (Val t)
  | p, [], t =>
    match p with
    | none => none
    | some i =>
      match s[i]? with
      | none => none
      | some cell => if cell.isEndOfWord then cell.castValue t else none
  | p, k :: rest, t =>
    match p with
    | none => none
    | some i =>
      match s[i]? with
      | none => none
      | some cell =>
        match lookupChild cell.children k with
        | some sp => searchH s sp rest t
        | none => none

/-- The edge taken during the descent of the insert lambda (lines 89–95):
the stored pointer under the current character, if the dereferenced current
cell has that edge, else null. -/
def insertCurNext (s : List (HeapNode Ty Val)) (cur : Option Nat) (k : Char) : Option Nat :=
  match cur.bind (fun i => s[i]?) with
  | some c => (lookupChild c.children k).join
  | none => none

/-- The cell the insert lambda constructs at one inner level (lines 98–105):
a shallow clone of the pre-existing cell at this position (or a fresh plain
cell), with the edge for the current character redirected at the cell built
one level deeper.  The dangling-index fallback has no C++ counterpart and is
unreachable for closed stores. -/
def insertStep (k : Char) (s1 : List (HeapNode Ty Val)) (cur : Option Nat)
    (nextIdx : Nat) : HeapNode Ty Val :=
  let retCell : HeapNode Ty Val :=
    match cur with
    | some i =>
      match s1[i]? with
      | some c => c.copy
      | none => HeapNode.plain []
    | none => HeapNode.plain []
  heapWithChildren retCell (setChild retCell.children k (some nextIdx))

/-- The recursive lambda of `Trie::insert` against a store: descend reading
the input version's cells, then append one freshly constructed cell per
level on the way back up, returning the extended store and the index of the
cell built for this level. -/
def insertAuxH (t : Ty) (x : Val t) :
    List Char → List (HeapNode Ty Val) → Option Nat → List (HeapNode Ty Val) × Nat
  | [], s, cur =>
    match cur.bind (fun i => s[i]?) with
    | some c => (s ++ [HeapNode.valueNode c.children t x], s.length)
    | none => (s ++ [HeapNode.valueNode [] t x], s.length)
  | k :: rest, s, cur =>
    let res := insertAuxH t x rest s (insertCurNext s cur k)
    (res.1 ++ [insertStep k res.1 cur res.2], res.1.length)

/-- The recursive lambda of `Trie::remove` against a store.  `.error ()`
marks a null (or, artifact of the index model, dangling) dereference;
`.ok (s, none)` is returning `nullptr` with no lasting allocation (the
discarded clone is owned by a `unique_ptr` and freed); otherwise one cell is
appended for this level. -/
def removeAuxH : List Char → List (HeapNode Ty Val) → Option Nat →
    Except Unit (List (HeapNode Ty Val) × Option Nat)
  | [], s, cur =>
    match cur.bind (fun i => s[i]?) with
    | none => .error ()
    | some c => .ok (s ++ [HeapNode.plain c.children], some s.length)
  | k :: rest, s, cur =>
    match cur.bind (fun i => s[i]?) with
    | none => .error ()
    | some c =>
      match lookupChild c.children k with
      | none => .ok (s, none)
      | some sp =>
        match removeAuxH rest s sp with
        | .error e => .error e
        | .ok (s1, none) => .ok (s1, none)
        | .ok (s1, some nextIdx) =>
          match s1[nextIdx]? with
          | none => .error ()
          | some nextCell =>
            if nextCell.children.isEmpty && !nextCell.isEndOfWord then
              .ok (s1 ++ [heapWithChildren c.copy (eraseChild c.copy.children k)],
                some s1.length)
            else
              .ok (s1 ++ [heapWithChildren c.copy (setChild c.copy.children k (some nextIdx))],
                some s1.length)

/-- `Trie::remove` against a store: the top-level branches of lines 148–154. -/
def removeH (s : List (HeapNode Ty Val)) (root : Option Nat) (key : List Char) :
    Except Unit (List (HeapNode Ty Val) × Option Nat) :=
  match root with
  | none => .ok (s, none)
  | some r =>
    match removeAuxH key s (some r) with
    | .error e => .error e
    | .ok (s1, none) => .ok (s1, some r)
    | .ok (s1, some i) =>
      match (s1[i]? : Option (HeapNode Ty Val)) with
      | none => .error ()
      | some cell =>
        if cell.children.isEmpty && !cell.isEndOfWord then .ok (s1, none)
        else .ok (s1, some i)

/-- A closed store: every child pointer of every cell points strictly below
the cell's own index (cells are constructed bottom-up, children first), in
particular into the store. -/
def HClosed (s : List (HeapNode Ty Val)) : Prop :=
  ∀ (i : Nat) (cell : HeapNode Ty Val), s[i]? = some cell →
    ∀ c j, (c, some j) ∈ cell.children → j < i

/-- A valid root pointer for a store: null, or an index into the store. -/
def HPtrOk (s : List (HeapNode Ty Val)) (p : Option Nat) : Prop :=
  ∀ i, p = some i → i < s.length

/-! ### Concrete instantiation used to evaluate the model

Runtime types are tags: `TyN` is the (countable) set of value types a C++
program instantiates the templates at, compared by `dynamic_cast`; the
payload carrier is `Nat` for every tag. -/

abbrev TyN : Type := Nat

abbrev ValN : TyN → Type := fun _ => Nat

/-! ## Lemmas about children association lists -/

section ChildrenLemmas

variable {α : Type}

@[simp] theorem childKeys_nil : childKeys ([] : List (Char × α)) = [] := rfl

@[simp] theorem childKeys_cons (c : Char) (b : α) (rest : List (Char × α)) :
    childKeys ((c, b) :: rest) = c :: childKeys rest := rfl

theorem lookupChild_eq_none_of_not_mem {cs : List (Char × α)} {k : Char}
    (h : k ∉ childKeys cs) : lookupChild cs k = none := by
  induction cs with
  | nil => rfl
  | cons p rest ih =>
    obtain ⟨c, b⟩ := p
    rw [childKeys_cons, List.mem_cons] at h
    push_neg at h
    rw [lookupChild, if_neg (fun hc : c = k => h.1 hc.symm)]
    exact ih h.2

theorem lookupChild_mem {cs : List (Char × α)} {k : Char} {a : α}
    (h : lookupChild cs k = some a) : (k, a) ∈ cs := by
  induction cs with
  | nil => exact absurd h (by rw [lookupChild]; exact Option.noConfusion)
  | cons p rest ih =>
    obtain ⟨c, b⟩ := p
    rw [lookupChild] at h
    by_cases hc : c = k
    · rw [if_pos hc] at h
      cases h
      cases hc
      exact List.mem_cons_self _ _
    · rw [if_neg hc] at h
      exact List.mem_cons_of_mem _ (ih h)

theorem lookupChild_setChild_self (cs : List (Char × α)) (k : Char) (a : α) :
    lookupChild (setChild cs k a) k = some a := by
  induction cs with
  | nil => rw [setChild, lookupChild, if_pos rfl]
  | cons p rest ih =>
    obtain ⟨c, b⟩ := p
    rw [setChild]
    by_cases hc : c = k
    · rw [if_pos hc, lookupChild, if_pos hc]
    · rw [if_neg hc, lookupChild, if_neg hc]
      exact ih

theorem lookupChild_setChild_ne (cs : List (Char × α)) {k k' : Char} (a : α)
    (h : k' ≠ k) : lookupChild (setChild cs k a) k' = lookupChild cs k' := by
  induction cs with
  | nil =>
    simp only [setChild, lookupChild, if_neg (fun hc : k = k' => h hc.symm)]
  | cons p rest ih =>
    obtain ⟨c, b⟩ := p
    rw [setChild]
    by_cases hc : c = k
    · rw [if_pos hc, lookupChild, lookupChild,
        if_neg (fun hck : c = k' => h (hc ▸ hck).symm),
        if_neg (fun hck : c = k' => h (hc ▸ hck).symm)]
    · rw [if_neg hc, lookupChild, lookupChild]
      by_cases hck : c = k'
      · rw [if_pos hck, if_pos hck]
      · rw [if_neg hck, if_neg hck]
        exact ih

theorem lookupChild_eraseChild_ne (cs : List (Char × α)) {k k' : Char}
    (h : k' ≠ k) : lookupChild (eraseChild cs k) k' = lookupChild cs k' := by
  induction cs with
  | nil => rfl
  | cons p rest ih =>
    obtain ⟨c, b⟩ := p
    rw [eraseChild]
    by_cases hc : c = k
    · rw [if_pos hc, lookupChild, if_neg (fun hck : c = k' => h (hc ▸ hck).symm)]
    · rw [if_neg hc, lookupChild, lookupChild]
      by_cases hck : c = k'
      · rw [if_pos hck, if_pos hck]
      · rw [if_neg hck, if_neg hck]
        exact ih

theorem lookupChild_eraseChild_self {cs : List (Char × α)} {k : Char}
    (h : (childKeys cs).Nodup) : lookupChild (eraseChild cs k) k = none := by
  induction cs with
  | nil => rfl
  | cons p rest ih =>
    obtain ⟨c, b⟩ := p
    rw [childKeys_cons, List.nodup_cons] at h
    rw [eraseChild]
    by_cases hc : c = k
    · rw [if_pos hc]
      exact lookupChild_eq_none_of_not_mem (hc ▸ h.1)
    · rw [if_neg hc, lookupChild, if_neg hc]
      exact ih h.2

theorem setChild_eq_of_lookup {cs : List (Char × α)} {k : Char} {a : α}
    (h : lookupChild cs k = some a) : setChild cs k a = cs := by
  induction cs with
  | nil => exact absurd h (by rw [lookupChild]; exact Option.noConfusion)
  | cons p rest ih =>
    obtain ⟨c, b⟩ := p
    rw [lookupChild] at h
    rw [setChild]
    by_cases hc : c = k
    · rw [if_pos hc] at h ⊢
      cases h
      rfl
    · rw [if_neg hc] at h ⊢
      rw [ih h]

theorem setChild_ne_nil (cs : List (Char × α)) (k : Char) (a : α) :
    setChild cs k a ≠ [] := by
  cases cs with
  | nil => rw [setChild]; exact List.cons_ne_nil _ _
  | cons p rest =>
    obtain ⟨c, b⟩ := p
    rw [setChild]
    by_cases hc : c = k
    · rw [if_pos hc]; exact List.cons_ne_nil _ _
    · rw [if_neg hc]; exact List.cons_ne_nil _ _

theorem mem_setChild {cs : List (Char × α)} {k : Char} {a : α} {p : Char × α}
    (h : p ∈ setChild cs k a) : p = (k, a) ∨ p ∈ cs := by
  induction cs with
  | nil =>
    rw [setChild, List.mem_singleton] at h
    exact Or.inl h
  | cons q rest ih =>
    obtain ⟨c, b⟩ := q
    rw [setChild] at h
    by_cases hc : c = k
    · rw [if_pos hc, List.mem_cons] at h
      rcases h with h | h
      · cases hc
        exact Or.inl h
      · exact Or.inr (List.mem_cons_of_mem _ h)
    · rw [if_neg hc, List.mem_cons] at h
      rcases h with h | h
      · exact Or.inr (h ▸ List.mem_cons_self _ _)
      · rcases ih h with h' | h'
        · exact Or.inl h'
        · exact Or.inr (List.mem_cons_of_mem _ h')

theorem mem_eraseChild {cs : List (Char × α)} {k : Char} {p : Char × α}
    (h : p ∈ eraseChild cs k) : p ∈ cs := by
  induction cs with
  | nil => exact absurd h (by rw [eraseChild]; exact List.not_mem_nil _)
  | cons q rest ih =>
    obtain ⟨c, b⟩ := q
    rw [eraseChild] at h
    by_cases hc : c = k
    · rw [if_pos hc] at h
      exact List.mem_cons_of_mem _ h
    · rw [if_neg hc, List.mem_cons] at h
      rcases h with h | h
      · exact h ▸ List.mem_cons_self _ _
      · exact List.mem_cons_of_mem _ (ih h)

theorem mem_childKeys_setChild {cs : List (Char × α)} {k x : Char} {a : α}
    (h : x ∈ childKeys (setChild cs k a)) : x ∈ childKeys cs ∨ x = k := by
  induction cs with
  | nil =>
    rw [setChild, childKeys_cons, childKeys_nil, List.mem_singleton] at h
    exact Or.inr h
  | cons q rest ih =>
    obtain ⟨c, b⟩ := q
    rw [setChild] at h
    by_cases hc : c = k
    · rw [if_pos hc, childKeys_cons] at h
      rw [childKeys_cons]
      exact Or.inl h
    · rw [if_neg hc, childKeys_cons, List.mem_cons] at h
      rw [childKeys_cons, List.mem_cons]
      rcases h with h | h
      · exact Or.inl (Or.inl h)
      · rcases ih h with h' | h'
        · exact Or.inl (Or.inr h')
        · exact Or.inr h'

theorem nodup_childKeys_setChild {cs : List (Char × α)} {k : Char} {a : α}
    (h : (childKeys cs).Nodup) : (childKeys (setChild cs k a)).Nodup := by
  induction cs with
  | nil =>
    rw [setChild, childKeys_cons, childKeys_nil]
    exact List.nodup_singleton _
  | cons q rest ih =>
    obtain ⟨c, b⟩ := q
    rw [childKeys_cons, List.nodup_cons] at h
    rw [setChild]
    by_cases hc : c = k
    · rw [if_pos hc, childKeys_cons, List.nodup_cons]
      exact h
    · rw [if_neg hc, childKeys_cons, List.nodup_cons]
      refine ⟨fun hm => ?_, ih h.2⟩
      rcases mem_childKeys_setChild hm with h' | h'
      · exact h.1 h'
      · exact hc h'

theorem mem_childKeys_eraseChild {cs : List (Char × α)} {k x : Char}
    (h : x ∈ childKeys (eraseChild cs k)) : x ∈ childKeys cs := by
  induction cs with
  | nil => exact absurd h (by rw [eraseChild]; exact List.not_mem_nil _)
  | cons q rest ih =>
    obtain ⟨c, b⟩ := q
    rw [eraseChild] at h
    by_cases hc : c = k
    · rw [if_pos hc] at h
      rw [childKeys_cons, List.mem_cons]
      exact Or.inr h
    · rw [if_neg hc, childKeys_cons, List.mem_cons] at h
      rw [childKeys_cons, List.mem_cons]
      rcases h with h | h
      · exact Or.inl h
      · exact Or.inr (ih h)

theorem nodup_childKeys_eraseChild {cs : List (Char × α)} {k : Char}
    (h : (childKeys cs).Nodup) : (childKeys (eraseChild cs k)).Nodup := by
  induction cs with
  | nil => exact h
  | cons q rest ih =>
    obtain ⟨c, b⟩ := q
    rw [childKeys_cons, List.nodup_cons] at h
    rw [eraseChild]
    by_cases hc : c = k
    · rw [if_pos hc]
      exact h.2
    · rw [if_neg hc, childKeys_cons, List.nodup_cons]
      exact ⟨fun hm => h.1 (mem_childKeys_eraseChild hm), ih h.2⟩

end ChildrenLemmas

/-! ## Basic node lemmas -/

section NodeLemmas

variable {Ty : Type} {Val : Ty → Type}

@[simp] theorem children_plain (cs : List (Char × Option (TrieNode Ty Val))) :
    (TrieNode.plain cs).children = cs := rfl

@[simp] theorem children_valueNode (cs : List (Char × Option (TrieNode Ty Val)))
    (t : Ty) (v : Val t) : (TrieNode.valueNode cs t v).children = cs := rfl

@[simp] theorem isEndOfWord_plain (cs : List (Char × Option (TrieNode Ty Val))) :
    (TrieNode.plain cs).isEndOfWord = false := rfl

@[simp] theorem isEndOfWord_valueNode (cs : List (Char × Option (TrieNode Ty Val)))
    (t : Ty) (v : Val t) : (TrieNode.valueNode cs t v).isEndOfWord = true := rfl

/-- The shallow clone rebuilds exactly the node it clones: a plain node the
program constructs always has `isEndOfWord = false`, which is what
`TrieNode::copy` rebuilds, and `TrieValueNode::copy` passes everything
through. -/
theorem copy_eq (n : TrieNode Ty Val) : n.copy = n := by
  cases n <;> rfl

@[simp] theorem withChildren_children (n : TrieNode Ty Val)
    (cs : List (Char × Option (TrieNode Ty Val))) : (withChildren n cs).children = cs := by
  cases n <;> rfl

@[simp] theorem withChildren_isEndOfWord (n : TrieNode Ty Val)
    (cs : List (Char × Option (TrieNode Ty Val))) :
    (withChildren n cs).isEndOfWord = n.isEndOfWord := by
  cases n <;> rfl

theorem withChildren_castValue [DecidableEq Ty] (n : TrieNode Ty Val)
    (cs : List (Char × Option (TrieNode Ty Val))) (t : Ty) :
    castValue (withChildren n cs) t = castValue n t := by
  cases n <;> rfl

theorem withChildren_self (n : TrieNode Ty Val) : withChildren n n.children = n := by
  cases n <;> rfl

end NodeLemmas

/-! ## Search unfolding lemmas -/

section SearchLemmas

variable {Ty : Type} {Val : Ty → Type}

@[simp] theorem searchLoop_nil (cur : Option (TrieNode Ty Val)) :
    searchLoop cur [] = cur := rfl

@[simp] theorem searchLoop_none (key : List Char) :
    searchLoop (none : Option (TrieNode Ty Val)) key = none := by
  cases key <;> rfl

variable [DecidableEq Ty]

@[simp] theorem nodeSearch_none (key : List Char) (t : Ty) :
    nodeSearch (none : Option (TrieNode Ty Val)) key t = none := by
  simp [nodeSearch]

theorem nodeSearch_nil (n : TrieNode Ty Val) (t : Ty) :
    nodeSearch (some n) [] t = if n.isEndOfWord then castValue n t else none := rfl

theorem nodeSearch_cons (n : TrieNode Ty Val) (k : Char) (rest : List Char) (t : Ty) :
    nodeSearch (some n) (k :: rest) t =
      match lookupChild n.children k with
      | some sp => nodeSearch sp rest t
      | none => none := by
  simp only [nodeSearch, searchLoop]
  cases lookupChild n.children k <;> rfl

theorem nodeSearch_cons_found {n : TrieNode Ty Val} {k : Char}
    {sp : Option (TrieNode Ty Val)} (h : lookupChild n.children k = some sp)
    (rest : List Char) (t : Ty) :
    nodeSearch (some n) (k :: rest) t = nodeSearch sp rest t := by
  rw [nodeSearch_cons, h]

theorem nodeSearch_cons_notfound {n : TrieNode Ty Val} {k : Char}
    (h : lookupChild n.children k = none) (rest : List Char) (t : Ty) :
    nodeSearch (some n) (k :: rest) t = none := by
  rw [nodeSearch_cons, h]

/-- A dead node (empty children, not end of word) answers every search
negatively. -/
theorem nodeSearch_dead {n : TrieNode Ty Val} (hc : n.children = [])
    (he : n.isEndOfWord = false) (key : List Char) (t : Ty) :
    nodeSearch (some n) key t = none := by
  cases key with
  | nil => simp [nodeSearch_nil, he]
  | cons k rest => rw [nodeSearch_cons_notfound (by simp [hc, lookupChild]) rest t]

end SearchLemmas

/-! ## Insert lemmas -/

section InsertLemmas

variable {Ty : Type} {Val : Ty → Type}

theorem insertAux_nil_none (t : Ty) (x : Val t) :
    insertAux t x [] (none : Option (TrieNode Ty Val)) = .valueNode [] t x := rfl

theorem insertAux_nil_some (t : Ty) (x : Val t) (n : TrieNode Ty Val) :
    insertAux t x [] (some n) = .valueNode n.children t x := rfl

theorem insertAux_cons_none (t : Ty) (x : Val t) (k : Char) (rest : List Char) :
    insertAux t x (k :: rest) (none : Option (TrieNode Ty Val)) =
      withChildren (.plain []) (setChild [] k (some (insertAux t x rest none))) := rfl

theorem insertAux_cons_some (t : Ty) (x : Val t) (k : Char) (rest : List Char)
    (n : TrieNode Ty Val) :
    insertAux t x (k :: rest) (some n) =
      withChildren n.copy (setChild n.copy.children k
        (some (insertAux t x rest (lookupChild n.children k).join))) := rfl

variable [DecidableEq Ty]

@[simp] theorem castValue_self (cs : List (Char × Option (TrieNode Ty Val)))
    (t : Ty) (v : Val t) : castValue (TrieNode.valueNode cs t v) t = some v := by
  simp [castValue]

theorem castValue_ne (cs : List (Char × Option (TrieNode Ty Val))) {t u : Ty}
    (v : Val u) (h : u ≠ t) : castValue (TrieNode.valueNode cs u v) t = none := by
  simp only [castValue]
  rw [dif_neg h]

/-- `search(insert(v,k,x),k) == x`, at the level of raw node pointers:
searching the inserted key in the subtree the insert lambda rebuilds finds
exactly the inserted value, whatever was there before. -/
theorem nodeSearch_insertAux_self (t : Ty) (x : Val t) :
    ∀ (key : List Char) (cur : Option (TrieNode Ty Val)),
      nodeSearch (some (insertAux t x key cur)) key t = some x := by
  intro key
  induction key with
  | nil =>
    intro cur
    cases cur with
    | none => rw [insertAux_nil_none, nodeSearch_nil, isEndOfWord_valueNode, if_pos rfl,
        castValue_self]
    | some n => rw [insertAux_nil_some, nodeSearch_nil, isEndOfWord_valueNode, if_pos rfl,
        castValue_self]
  | cons k rest ih =>
    intro cur
    cases cur with
    | none =>
      have hl : lookupChild (withChildren (TrieNode.plain [])
            (setChild [] k (some (insertAux t x rest none)))).children k =
          some (some (insertAux t x rest none)) := by
        rw [withChildren_children]
        exact lookupChild_setChild_self _ _ _
      rw [insertAux_cons_none, nodeSearch_cons_found hl]
      exact ih none
    | some n =>
      have hl : lookupChild (withChildren n.copy (setChild n.copy.children k
            (some (insertAux t x rest (lookupChild n.children k).join)))).children k =
          some (some (insertAux t x rest (lookupChild n.children k).join)) := by
        rw [withChildren_children]
        exact lookupChild_setChild_self _ _ _
      rw [insertAux_cons_some, nodeSearch_cons_found hl]
      exact ih _

/-- The frame property of `insert` at the level of raw node pointers: a
search for any other key is unchanged by the rebuilt path, because each
rebuilt node keeps every child edge of the node it clones except the one on
the inserted key's path. -/
theorem nodeSearch_insertAux_frame (t : Ty) (x : Val t) :
    ∀ (key key2 : List Char), key2 ≠ key →
      ∀ (cur : Option (TrieNode Ty Val)) (t2 : Ty),
        nodeSearch (some (insertAux t x key cur)) key2 t2 = nodeSearch cur key2 t2 := by
  intro key
  induction key with
  | nil =>
    intro key2 hne cur t2
    cases key2 with
    | nil => exact absurd rfl hne
    | cons c2 r2 =>
      cases cur with
      | none =>
        rw [insertAux_nil_none,
          nodeSearch_cons_notfound (by rw [children_valueNode]; rfl), nodeSearch_none]
      | some n =>
        rw [insertAux_nil_some, nodeSearch_cons, nodeSearch_cons, children_valueNode]
  | cons k rest ih =>
    intro key2 hne cur t2
    cases key2 with
    | nil =>
      cases cur with
      | none =>
        rw [insertAux_cons_none, nodeSearch_nil, withChildren_isEndOfWord,
          isEndOfWord_plain, if_neg (by simp), nodeSearch_none]
      | some n =>
        rw [insertAux_cons_some, nodeSearch_nil, nodeSearch_nil, withChildren_isEndOfWord,
          withChildren_castValue, copy_eq]
    | cons c2 r2 =>
      by_cases hc : c2 = k
      · subst hc
        have hr : r2 ≠ rest := fun h => hne (by rw [h])
        cases cur with
        | none =>
          have hl : lookupChild (withChildren (TrieNode.plain [])
                (setChild [] c2 (some (insertAux t x rest none)))).children c2 =
              some (some (insertAux t x rest none)) := by
            rw [withChildren_children]
            exact lookupChild_setChild_self _ _ _
          rw [insertAux_cons_none, nodeSearch_cons_found hl,
            ih r2 hr none t2, nodeSearch_none, nodeSearch_none]
        | some n =>
          have hl : lookupChild (withChildren n.copy (setChild n.copy.children c2
                (some (insertAux t x rest (lookupChild n.children c2).join)))).children c2 =
              some (some (insertAux t x rest (lookupChild n.children c2).join)) := by
            rw [withChildren_children]
            exact lookupChild_setChild_self _ _ _
          rw [insertAux_cons_some, nodeSearch_cons_found hl,
            ih r2 hr _ t2, nodeSearch_cons]
          cases hlk : lookupChild n.children c2 with
          | none => simp
          | some sp => rfl
      · cases cur with
        | none =>
          rw [insertAux_cons_none,
            nodeSearch_cons_notfound
              (by rw [withChildren_children, lookupChild_setChild_ne _ _ hc]; rfl),
            nodeSearch_none]
        | some n =>
          rw [insertAux_cons_some, nodeSearch_cons, nodeSearch_cons, withChildren_children,
            copy_eq, lookupChild_setChild_ne _ _ hc]

end InsertLemmas

/-! ## Well-formedness lemmas -/

section WFLemmas

variable {Ty : Type} {Val : Ty → Type}

theorem wfn_nodup {n : TrieNode Ty Val} (h : WFN n) : (childKeys n.children).Nodup := by
  cases h with
  | mk _ nodup _ _ _ => exact nodup

theorem wfn_alive {n : TrieNode Ty Val} (h : WFN n) :
    n.children ≠ [] ∨ n.isEndOfWord = true := by
  cases h with
  | mk _ _ alive _ _ => exact alive

theorem wfn_nonnull {n : TrieNode Ty Val} (h : WFN n) (c : Char) :
    (c, (none : Option (TrieNode Ty Val))) ∉ n.children := by
  cases h with
  | mk _ _ _ nonnull _ => exact nonnull c

theorem wfn_child {n m : TrieNode Ty Val} {c : Char} (h : WFN n)
    (hm : (c, some m) ∈ n.children) : WFN m := by
  cases h with
  | mk _ _ _ _ kids => exact kids c m hm

theorem wfa_of_wfn {n : TrieNode Ty Val} (h : WFN n) : WFA n :=
  ⟨wfn_nodup h, fun c => wfn_nonnull h c, fun _ _ hm => wfn_child h hm⟩

theorem wfn_of_wfa {n : TrieNode Ty Val} (h : WFA n)
    (halive : n.children ≠ [] ∨ n.isEndOfWord = true) : WFN n :=
  WFN.mk n h.1 halive h.2.1 h.2.2

/-- A successful edge lookup in a well-formed node lands on a non-null,
well-formed child. -/
theorem wfn_lookup {n : TrieNode Ty Val} {k : Char} {sp : Option (TrieNode Ty Val)}
    (h : WFN n) (hl : lookupChild n.children k = some sp) :
    ∃ m, sp = some m ∧ WFN m := by
  have hmem := lookupChild_mem hl
  cases sp with
  | none => exact absurd hmem (wfn_nonnull h k)
  | some m => exact ⟨m, rfl, wfn_child h hmem⟩

/-- The node the insert lambda returns is well-formed whenever the node it
starts from is. -/
theorem wfn_insertAux (t : Ty) (x : Val t) :
    ∀ (key : List Char) (cur : Option (TrieNode Ty Val)),
      (∀ m, cur = some m → WFN m) → WFN (insertAux t x key cur) := by
  intro key
  induction key with
  | nil =>
    intro cur hcur
    cases cur with
    | none =>
      rw [insertAux_nil_none]
      exact WFN.mk _ (by simp) (Or.inr rfl) (by simp) (by simp)
    | some n =>
      have hn := hcur n rfl
      rw [insertAux_nil_some]
      refine WFN.mk _ ?_ (Or.inr rfl) ?_ ?_
      · simpa using wfn_nodup hn
      · intro c hmem
        rw [children_valueNode] at hmem
        exact wfn_nonnull hn c hmem
      · intro c m hmem
        rw [children_valueNode] at hmem
        exact wfn_child hn hmem
  | cons k rest ih =>
    intro cur hcur
    cases cur with
    | none =>
      have hnext : WFN (insertAux t x rest none) := ih none (fun m hm => by cases hm)
      rw [insertAux_cons_none]
      refine WFN.mk _ ?_ (Or.inl (by rw [withChildren_children]; exact setChild_ne_nil _ _ _))
        ?_ ?_
      · rw [withChildren_children]
        exact nodup_childKeys_setChild (by simp)
      · intro c hmem
        rw [withChildren_children] at hmem
        rcases mem_setChild hmem with h' | h'
        · cases h'
        · exact absurd h' (List.not_mem_nil _)
      · intro c m hmem
        rw [withChildren_children] at hmem
        rcases mem_setChild hmem with h' | h'
        · cases h'
          exact hnext
        · exact absurd h' (List.not_mem_nil _)
    | some n =>
      have hn := hcur n rfl
      have hnext : WFN (insertAux t x rest (lookupChild n.children k).join) := by
        apply ih
        intro m hm
        cases hj : lookupChild n.children k with
        | none => rw [hj] at hm; cases hm
        | some sp =>
          rw [hj] at hm
          rcases wfn_lookup hn hj with ⟨m', hsp, hm'⟩
          subst hsp
          cases hm
          exact hm'
      rw [insertAux_cons_some]
      refine WFN.mk _ ?_ (Or.inl (by rw [withChildren_children]; exact setChild_ne_nil _ _ _))
        ?_ ?_
      · rw [withChildren_children, copy_eq]
        exact nodup_childKeys_setChild (wfn_nodup hn)
      · intro c hmem
        rw [withChildren_children, copy_eq] at hmem
        rcases mem_setChild hmem with h' | h'
        · cases h'
        · exact wfn_nonnull hn c h'
      · intro c m hmem
        rw [withChildren_children, copy_eq] at hmem
        rcases mem_setChild hmem with h' | h'
        · cases h'
          exact hnext
        · exact wfn_child hn h'

/-- The empty version is well-formed. -/
theorem wft_empty : WFT (Trie.empty : Trie Ty Val) := by
  intro r hr
  cases hr

/-- `insert` preserves well-formedness of versions. -/
theorem wft_insert {v : Trie Ty Val} (h : WFT v) (key : List Char) (t : Ty) (x : Val t) :
    WFT (v.insert key t x) := by
  intro r hr
  cases hr
  exact wfn_insertAux t x key v.root h

end WFLemmas

/-! ## Remove lemmas -/

section RemoveLemmas

variable {Ty : Type} {Val : Ty → Type}

theorem removeAux_nil_some (n : TrieNode Ty Val) :
    removeAux [] (some n) = .ok (some (.plain n.children)) := rfl

theorem removeAux_cons_some (k : Char) (rest : List Char) (n : TrieNode Ty Val) :
    removeAux (k :: rest) (some n) =
      (match lookupChild n.children k with
       | none => .ok none
       | some sp =>
         match removeAux rest sp with
         | .error e => .error e
         | .ok none => .ok none
         | .ok (some next) =>
           if next.children.isEmpty && !next.isEndOfWord then
             .ok (some (withChildren n.copy (eraseChild n.copy.children k)))
           else
             .ok (some (withChildren n.copy (setChild n.copy.children k (some next))))) := rfl

theorem removeAux_cons_lookup_none {n : TrieNode Ty Val} {k : Char} (rest : List Char)
    (h : lookupChild n.children k = none) : removeAux (k :: rest) (some n) = .ok none := by
  rw [removeAux_cons_some, h]

theorem removeAux_cons_rec_error {n : TrieNode Ty Val} {k : Char}
    {sp : Option (TrieNode Ty Val)} {rest : List Char} {e : Unit}
    (h : lookupChild n.children k = some sp) (hr : removeAux rest sp = .error e) :
    removeAux (k :: rest) (some n) = .error e := by
  simp only [removeAux_cons_some, h, hr]

theorem removeAux_cons_rec_none {n : TrieNode Ty Val} {k : Char}
    {sp : Option (TrieNode Ty Val)} {rest : List Char}
    (h : lookupChild n.children k = some sp) (hr : removeAux rest sp = .ok none) :
    removeAux (k :: rest) (some n) = .ok none := by
  simp only [removeAux_cons_some, h, hr]

theorem removeAux_cons_rec_dead {n : TrieNode Ty Val} {k : Char}
    {sp : Option (TrieNode Ty Val)} {rest : List Char} {next : TrieNode Ty Val}
    (h : lookupChild n.children k = some sp) (hr : removeAux rest sp = .ok (some next))
    (hd : (next.children.isEmpty && !next.isEndOfWord) = true) :
    removeAux (k :: rest) (some n) =
      .ok (some (withChildren n.copy (eraseChild n.copy.children k))) := by
  simp only [removeAux_cons_some, h, hr, hd, if_pos]

theorem removeAux_cons_rec_live {n : TrieNode Ty Val} {k : Char}
    {sp : Option (TrieNode Ty Val)} {rest : List Char} {next : TrieNode Ty Val}
    (h : lookupChild n.children k = some sp) (hr : removeAux rest sp = .ok (some next))
    (hd : ¬((next.children.isEmpty && !next.isEndOfWord) = true)) :
    removeAux (k :: rest) (some n) =
      .ok (some (withChildren n.copy (setChild n.copy.children k (some next)))) := by
  simp only [removeAux_cons_some, h, hr]
  rw [if_neg hd]

/-- The pruning test of line 139 holds exactly of dead nodes. -/
theorem dead_cond_iff (n : TrieNode Ty Val) :
    (n.children.isEmpty && !n.isEndOfWord) = true ↔
      n.children = [] ∧ n.isEndOfWord = false := by
  cases n with
  | plain cs => cases cs <;> simp
  | valueNode cs t v => simp

theorem not_dead_of_alive {n : TrieNode Ty Val}
    (h : n.children ≠ [] ∨ n.isEndOfWord = true) :
    ¬((n.children.isEmpty && !n.isEndOfWord) = true) := by
  intro hd
  rcases (dead_cond_iff n).mp hd with ⟨hc, he⟩
  rcases h with h | h
  · exact h hc
  · rw [h] at he; cases he

theorem alive_of_not_dead {n : TrieNode Ty Val}
    (h : ¬((n.children.isEmpty && !n.isEndOfWord) = true)) :
    n.children ≠ [] ∨ n.isEndOfWord = true := by
  by_cases hc : n.children = []
  · cases he : n.isEndOfWord
    · exact absurd ((dead_cond_iff n).mpr ⟨hc, he⟩) h
    · exact Or.inr rfl
  · exact Or.inl hc

/-- On a well-formed subtree the remove lambda never dereferences null:
every child edge it follows leads to a non-null node. -/
theorem removeAux_total :
    ∀ (key : List Char) (r : TrieNode Ty Val), WFN r →
      ∃ res, removeAux key (some r) = .ok res := by
  intro key
  induction key with
  | nil => exact fun r _ => ⟨_, removeAux_nil_some r⟩
  | cons k rest ih =>
    intro r hr
    cases hlk : lookupChild r.children k with
    | none => exact ⟨none, removeAux_cons_lookup_none rest hlk⟩
    | some sp =>
      rcases wfn_lookup hr hlk with ⟨m, hsp, hm⟩
      subst hsp
      rcases ih m hm with ⟨res, hres⟩
      cases res with
      | none => exact ⟨none, removeAux_cons_rec_none hlk hres⟩
      | some next =>
        by_cases hd : (next.children.isEmpty && !next.isEndOfWord) = true
        · exact ⟨_, removeAux_cons_rec_dead hlk hres hd⟩
        · exact ⟨_, removeAux_cons_rec_live hlk hres hd⟩

/-- The node the remove lambda returns satisfies every well-formedness
condition except possibly its own aliveness (its parent, or the top level of
`Trie::remove`, applies the pruning check to it). -/
theorem wfa_removeAux :
    ∀ (key : List Char) (cur : Option (TrieNode Ty Val)),
      (∀ m, cur = some m → WFN m) →
      ∀ res, removeAux key cur = .ok res →
      ∀ n, res = some n → WFA n := by
  intro key
  induction key with
  | nil =>
    intro cur hcur res hok n hn
    cases cur with
    | none => cases hok
    | some m =>
      have hm := hcur m rfl
      rw [removeAux_nil_some] at hok
      cases hok
      cases hn
      refine ⟨by simpa using wfn_nodup hm, ?_, ?_⟩
      · intro c hmem
        rw [children_plain] at hmem
        exact wfn_nonnull hm c hmem
      · intro c m' hmem
        rw [children_plain] at hmem
        exact wfn_child hm hmem
  | cons k rest ih =>
    intro cur hcur res hok n hn
    cases cur with
    | none => cases hok
    | some m =>
      have hm := hcur m rfl
      cases hlk : lookupChild m.children k with
      | none =>
        rw [removeAux_cons_lookup_none rest hlk] at hok
        cases hok
        cases hn
      | some sp =>
        rcases wfn_lookup hm hlk with ⟨mc, hsp, hmc⟩
        subst hsp
        cases hrec : removeAux rest (some mc) with
        | error e =>
          rw [removeAux_cons_rec_error hlk hrec] at hok
          cases hok
        | ok sres =>
          cases sres with
          | none =>
            rw [removeAux_cons_rec_none hlk hrec] at hok
            cases hok
            cases hn
          | some next =>
            have hnextA : WFA next :=
              ih (some mc) (fun m' hm' => by cases hm'; exact hmc) _ hrec next rfl
            by_cases hd : (next.children.isEmpty && !next.isEndOfWord) = true
            · rw [removeAux_cons_rec_dead hlk hrec hd] at hok
              cases hok
              cases hn
              rw [copy_eq]
              refine ⟨?_, ?_, ?_⟩
              · rw [withChildren_children]
                exact nodup_childKeys_eraseChild (wfn_nodup hm)
              · intro c hmem
                rw [withChildren_children] at hmem
                exact wfn_nonnull hm c (mem_eraseChild hmem)
              · intro c m' hmem
                rw [withChildren_children] at hmem
                exact wfn_child hm (mem_eraseChild hmem)
            · rw [removeAux_cons_rec_live hlk hrec hd] at hok
              cases hok
              cases hn
              have hnext : WFN next := wfn_of_wfa hnextA (alive_of_not_dead hd)
              rw [copy_eq]
              refine ⟨?_, ?_, ?_⟩
              · rw [withChildren_children]
                exact nodup_childKeys_setChild (wfn_nodup hm)
              · intro c hmem
                rw [withChildren_children] at hmem
                rcases mem_setChild hmem with h' | h'
                · cases h'
                · exact wfn_nonnull hm c h'
              · intro c m' hmem
                rw [withChildren_children] at hmem
                rcases mem_setChild hmem with h' | h'
                · cases h'
                  exact hnext
                · exact wfn_child hm h'

/-- After a successful remove, the removed key is no longer found: if the
lambda returned null the key was absent to begin with, and if it returned a
rebuilt node, searching the key (at any type) under that node fails. -/
theorem removeAux_search [DecidableEq Ty] :
    ∀ (key : List Char) (cur : Option (TrieNode Ty Val)),
      (∀ m, cur = some m → WFN m) →
      ∀ res, removeAux key cur = .ok res → ∀ t : Ty,
        (res = none → nodeSearch cur key t = none) ∧
        (∀ n, res = some n → nodeSearch (some n) key t = none) := by
  intro key
  induction key with
  | nil =>
    intro cur hcur res hok t
    cases cur with
    | none => cases hok
    | some m =>
      rw [removeAux_nil_some] at hok
      cases hok
      constructor
      · intro h; cases h
      · intro n hn
        cases hn
        simp [nodeSearch_nil]
  | cons k rest ih =>
    intro cur hcur res hok t
    cases cur with
    | none => cases hok
    | some m =>
      have hm := hcur m rfl
      cases hlk : lookupChild m.children k with
      | none =>
        rw [removeAux_cons_lookup_none rest hlk] at hok
        cases hok
        constructor
        · intro _
          exact nodeSearch_cons_notfound hlk rest t
        · intro n hn; cases hn
      | some sp =>
        rcases wfn_lookup hm hlk with ⟨mc, hsp, hmc⟩
        subst hsp
        have hmc' : ∀ m', (some mc : Option (TrieNode Ty Val)) = some m' → WFN m' :=
          fun m' hm' => by cases hm'; exact hmc
        cases hrec : removeAux rest (some mc) with
        | error e => rw [removeAux_cons_rec_error hlk hrec] at hok; cases hok
        | ok sres =>
          cases sres with
          | none =>
            rw [removeAux_cons_rec_none hlk hrec] at hok
            cases hok
            constructor
            · intro _
              rw [nodeSearch_cons_found hlk rest t]
              exact (ih (some mc) hmc' none hrec t).1 rfl
            · intro n hn; cases hn
          | some next =>
            by_cases hd : (next.children.isEmpty && !next.isEndOfWord) = true
            · rw [removeAux_cons_rec_dead hlk hrec hd] at hok
              cases hok
              constructor
              · intro h; cases h
              · intro n hn
                cases hn
                refine nodeSearch_cons_notfound ?_ rest t
                rw [copy_eq, withChildren_children]
                exact lookupChild_eraseChild_self (wfn_nodup hm)
            · rw [removeAux_cons_rec_live hlk hrec hd] at hok
              cases hok
              constructor
              · intro h; cases h
              · intro n hn
                cases hn
                have hl : lookupChild (withChildren m.copy
                      (setChild m.copy.children k (some next))).children k =
                    some (some next) := by
                  rw [copy_eq, withChildren_children]
                  exact lookupChild_setChild_self _ _ _
                rw [nodeSearch_cons_found hl rest t]
                exact (ih (some mc) hmc' _ hrec t).2 next rfl

/-- The frame property of `remove` at the level of raw node pointers: when
the lambda rebuilds a node, every key other than the removed one searches the
same under the rebuilt node as under the original. -/
theorem removeAux_frame [DecidableEq Ty] :
    ∀ (key key2 : List Char), key2 ≠ key →
      ∀ (cur : Option (TrieNode Ty Val)) (n : TrieNode Ty Val),
        (∀ m, cur = some m → WFN m) →
        removeAux key cur = .ok (some n) →
        ∀ t : Ty, nodeSearch (some n) key2 t = nodeSearch cur key2 t := by
  intro key
  induction key with
  | nil =>
    intro key2 hne cur n hcur hok t
    cases cur with
    | none => cases hok
    | some m =>
      rw [removeAux_nil_some] at hok
      cases hok
      cases key2 with
      | nil => exact absurd rfl hne
      | cons c2 r2 => rw [nodeSearch_cons, nodeSearch_cons, children_plain]
  | cons k rest ih =>
    intro key2 hne cur n hcur hok t
    cases cur with
    | none => cases hok
    | some m =>
      have hm := hcur m rfl
      cases hlk : lookupChild m.children k with
      | none => rw [removeAux_cons_lookup_none rest hlk] at hok; cases hok
      | some sp =>
        rcases wfn_lookup hm hlk with ⟨mc, hsp, hmc⟩
        subst hsp
        have hmc' : ∀ m', (some mc : Option (TrieNode Ty Val)) = some m' → WFN m' :=
          fun m' hm' => by cases hm'; exact hmc
        cases hrec : removeAux rest (some mc) with
        | error e => rw [removeAux_cons_rec_error hlk hrec] at hok; cases hok
        | ok sres =>
          cases sres with
          | none => rw [removeAux_cons_rec_none hlk hrec] at hok; cases hok
          | some next =>
            by_cases hd : (next.children.isEmpty && !next.isEndOfWord) = true
            · rw [removeAux_cons_rec_dead hlk hrec hd] at hok
              cases hok
              cases key2 with
              | nil =>
                rw [nodeSearch_nil, nodeSearch_nil, withChildren_isEndOfWord,
                  withChildren_castValue, copy_eq]
              | cons c2 r2 =>
                by_cases hc : c2 = k
                · subst hc
                  have hr : r2 ≠ rest := fun h => hne (by rw [h])
                  rw [nodeSearch_cons_notfound
                      (by rw [copy_eq, withChildren_children]
                          exact lookupChild_eraseChild_self (wfn_nodup hm)) r2 t,
                    nodeSearch_cons_found hlk r2 t,
                    ← ih r2 hr (some mc) next hmc' hrec t]
                  rcases (dead_cond_iff next).mp hd with ⟨hdc, hde⟩
                  exact (nodeSearch_dead hdc hde r2 t).symm
                · rw [nodeSearch_cons, nodeSearch_cons, copy_eq, withChildren_children,
                    lookupChild_eraseChild_ne _ hc]
            · rw [removeAux_cons_rec_live hlk hrec hd] at hok
              cases hok
              cases key2 with
              | nil =>
                rw [nodeSearch_nil, nodeSearch_nil, withChildren_isEndOfWord,
                  withChildren_castValue, copy_eq]
              | cons c2 r2 =>
                by_cases hc : c2 = k
                · subst hc
                  have hr : r2 ≠ rest := fun h => hne (by rw [h])
                  have hl : lookupChild (withChildren m.copy
                        (setChild m.copy.children c2 (some next))).children c2 =
                      some (some next) := by
                    rw [copy_eq, withChildren_children]
                    exact lookupChild_setChild_self _ _ _
                  rw [nodeSearch_cons_found hl r2 t, nodeSearch_cons_found hlk r2 t]
                  exact ih r2 hr (some mc) next hmc' hrec t
                · rw [nodeSearch_cons, nodeSearch_cons, copy_eq, withChildren_children,
                    lookupChild_setChild_ne _ _ hc]

/-- Removing a key that searches as absent (at every type) from a
well-formed subtree either aborts the descent (lambda returns null) or
rebuilds the very same subtree. -/
theorem removeAux_noop [DecidableEq Ty] :
    ∀ (key : List Char) (r : TrieNode Ty Val), WFN r →
      (∀ t : Ty, nodeSearch (some r) key t = none) →
      removeAux key (some r) = .ok none ∨ removeAux key (some r) = .ok (some r) := by
  intro key
  induction key with
  | nil =>
    intro r hr hs
    cases r with
    | valueNode cs u v =>
      have hu := hs u
      simp [nodeSearch_nil] at hu
    | plain cs =>
      right
      rw [removeAux_nil_some, children_plain]
  | cons k rest ih =>
    intro r hr hs
    cases hlk : lookupChild r.children k with
    | none => exact Or.inl (removeAux_cons_lookup_none rest hlk)
    | some sp =>
      rcases wfn_lookup hr hlk with ⟨mc, hsp, hmc⟩
      subst hsp
      have hs' : ∀ t : Ty, nodeSearch (some mc) rest t = none := by
        intro t
        rw [← nodeSearch_cons_found hlk rest t]
        exact hs t
      rcases ih mc hmc hs' with hrec | hrec
      · exact Or.inl (removeAux_cons_rec_none hlk hrec)
      · right
        rw [removeAux_cons_rec_live hlk hrec (not_dead_of_alive (wfn_alive hmc)),
          copy_eq, setChild_eq_of_lookup hlk, withChildren_self]

end RemoveLemmas

/-! ## Version-level lemmas -/

section TrieLemmas

variable {Ty : Type} {Val : Ty → Type}

theorem trie_search_def [DecidableEq Ty] (v : Trie Ty Val) (key : List Char) (t : Ty) :
    v.search key t = nodeSearch v.root key t := rfl

theorem trieRemove_none_root (key : List Char) :
    Trie.remove (⟨none⟩ : Trie Ty Val) key = .ok ⟨none⟩ := rfl

theorem trieRemove_some (r : TrieNode Ty Val) (key : List Char) :
    Trie.remove (⟨some r⟩ : Trie Ty Val) key =
      (match removeAux key (some r) with
       | .error e => .error e
       | .ok none => .ok ⟨some r⟩
       | .ok (some n) =>
         if n.children.isEmpty && !n.isEndOfWord then .ok ⟨none⟩
         else .ok ⟨some n⟩) := rfl

theorem trieRemove_some_error {r : TrieNode Ty Val} {key : List Char} {e : Unit}
    (h : removeAux key (some r) = .error e) :
    Trie.remove (⟨some r⟩ : Trie Ty Val) key = .error e := by
  simp only [trieRemove_some, h]

theorem trieRemove_some_none {r : TrieNode Ty Val} {key : List Char}
    (h : removeAux key (some r) = .ok none) :
    Trie.remove (⟨some r⟩ : Trie Ty Val) key = .ok ⟨some r⟩ := by
  simp only [trieRemove_some, h]

theorem trieRemove_some_dead {r n : TrieNode Ty Val} {key : List Char}
    (h : removeAux key (some r) = .ok (some n))
    (hd : (n.children.isEmpty && !n.isEndOfWord) = true) :
    Trie.remove (⟨some r⟩ : Trie Ty Val) key = .ok ⟨none⟩ := by
  simp only [trieRemove_some, h, hd, if_pos]

theorem trieRemove_some_live {r n : TrieNode Ty Val} {key : List Char}
    (h : removeAux key (some r) = .ok (some n))
    (hd : ¬((n.children.isEmpty && !n.isEndOfWord) = true)) :
    Trie.remove (⟨some r⟩ : Trie Ty Val) key = .ok ⟨some n⟩ := by
  simp only [trieRemove_some, h]
  rw [if_neg hd]

/-- `remove` preserves well-formedness of versions. -/
theorem wft_remove {v w : Trie Ty Val} {key : List Char} (h : WFT v)
    (hok : Trie.remove v key = .ok w) : WFT w := by
  obtain ⟨root⟩ := v
  cases root with
  | none =>
    rw [trieRemove_none_root] at hok
    cases hok
    exact wft_empty
  | some r =>
    have hr := h r rfl
    have hr' : ∀ m, (some r : Option (TrieNode Ty Val)) = some m → WFN m :=
      fun m hm => by cases hm; exact hr
    cases hrec : removeAux key (some r) with
    | error e => rw [trieRemove_some_error hrec] at hok; cases hok
    | ok res =>
      cases res with
      | none =>
        rw [trieRemove_some_none hrec] at hok
        cases hok
        intro r' hr''
        cases hr''
        exact hr
      | some n =>
        have hA : WFA n := wfa_removeAux key (some r) hr' _ hrec n rfl
        by_cases hd : (n.children.isEmpty && !n.isEndOfWord) = true
        · rw [trieRemove_some_dead hrec hd] at hok
          cases hok
          exact wft_empty
        · rw [trieRemove_some_live hrec hd] at hok
          cases hok
          intro r' hr''
          cases hr''
          exact wfn_of_wfa hA (alive_of_not_dead hd)

/-- On a well-formed version `remove` never hits the null dereference. -/
theorem trie_remove_total {v : Trie Ty Val} (h : WFT v) (key : List Char) :
    ∃ w, Trie.remove v key = .ok w := by
  obtain ⟨root⟩ := v
  cases root with
  | none => exact ⟨⟨none⟩, trieRemove_none_root key⟩
  | some r =>
    rcases removeAux_total key r (h r rfl) with ⟨res, hres⟩
    cases res with
    | none => exact ⟨_, trieRemove_some_none hres⟩
    | some n =>
      by_cases hd : (n.children.isEmpty && !n.isEndOfWord) = true
      · exact ⟨_, trieRemove_some_dead hres hd⟩
      · exact ⟨_, trieRemove_some_live hres hd⟩

end TrieLemmas

/-! ## Reachability lemmas -/

section ReachLemmas

variable {Ty : Type} {Val : Ty → Type}

/-- Every version reachable from the empty version is well-formed. -/
theorem reachable_wft {v : Trie Ty Val} (h : Reachable v) : WFT v := by
  induction h with
  | empty => exact wft_empty
  | ins v key t x _ ih => exact wft_insert ih key t x
  | rem v key w _ hok ih => exact wft_remove ih hok

/-- Every node reachable inside a well-formed version is well-formed. -/
theorem wfn_of_reachN {v : Trie Ty Val} {n : TrieNode Ty Val} (h : WFT v)
    (hr : ReachN v n) : WFN n := by
  induction hr with
  | root r hroot => exact h r hroot
  | child m c n _ hmem ih => exact wfn_child ih hmem

end ReachLemmas

/-! ## Heap model lemmas -/

section HeapLemmas

variable {Ty : Type} {Val : Ty → Type}

@[simp] theorem hchildren_plain (cs : List (Char × Option Nat)) :
    (HeapNode.plain cs : HeapNode Ty Val).children = cs := rfl

@[simp] theorem hchildren_valueNode (cs : List (Char × Option Nat)) (t : Ty) (v : Val t) :
    (HeapNode.valueNode cs t v).children = cs := rfl

theorem hcopy_eq (c : HeapNode Ty Val) : c.copy = c := by cases c <;> rfl

theorem searchH_none [DecidableEq Ty] (s : List (HeapNode Ty Val)) (key : List Char)
    (t : Ty) : searchH s none key t = none := by
  cases key <;> rfl

theorem searchH_nil_cell [DecidableEq Ty] {s : List (HeapNode Ty Val)} {i : Nat}
    {cell : HeapNode Ty Val} (h : s[i]? = some cell) (t : Ty) :
    searchH s (some i) [] t =
      if cell.isEndOfWord then cell.castValue t else none := by
  simp only [searchH, h]

theorem searchH_nil_dangling [DecidableEq Ty] {s : List (HeapNode Ty Val)} {i : Nat}
    (h : s[i]? = none) (t : Ty) : searchH s (some i) [] t = none := by
  simp only [searchH, h]

theorem searchH_cons_dangling [DecidableEq Ty] {s : List (HeapNode Ty Val)} {i : Nat}
    (h : s[i]? = none) (k : Char) (rest : List Char) (t : Ty) :
    searchH s (some i) (k :: rest) t = none := by
  simp only [searchH, h]

theorem searchH_cons_found [DecidableEq Ty] {s : List (HeapNode Ty Val)} {i : Nat}
    {cell : HeapNode Ty Val} {k : Char} {sp : Option Nat} (h : s[i]? = some cell)
    (hlk : lookupChild cell.children k = some sp) (rest : List Char) (t : Ty) :
    searchH s (some i) (k :: rest) t = searchH s sp rest t := by
  simp only [searchH, h, hlk]

theorem searchH_cons_notfound [DecidableEq Ty] {s : List (HeapNode Ty Val)} {i : Nat}
    {cell : HeapNode Ty Val} {k : Char} (h : s[i]? = some cell)
    (hlk : lookupChild cell.children k = none) (rest : List Char) (t : Ty) :
    searchH s (some i) (k :: rest) t = none := by
  simp only [searchH, h, hlk]

/-- Reads through a valid pointer into a closed store are unaffected by
appending cells: the whole search runs inside the original store. -/
theorem searchH_append [DecidableEq Ty] {s : List (HeapNode Ty Val)}
    (ext : List (HeapNode Ty Val)) (hC : HClosed s) :
    ∀ (key : List Char) (p : Option Nat), HPtrOk s p → ∀ t : Ty,
      searchH (s ++ ext) p key t = searchH s p key t := by
  intro key
  induction key with
  | nil =>
    intro p hp t
    cases p with
    | none => rw [searchH_none, searchH_none]
    | some i =>
      have hi : i < s.length := hp i rfl
      cases hcell : s[i]? with
      | none =>
        rw [searchH_nil_dangling (by rw [List.getElem?_append_left hi]; exact hcell),
          searchH_nil_dangling hcell]
      | some cell =>
        rw [searchH_nil_cell (by rw [List.getElem?_append_left hi]; exact hcell),
          searchH_nil_cell hcell]
  | cons k rest ih =>
    intro p hp t
    cases p with
    | none => rw [searchH_none, searchH_none]
    | some i =>
      have hi : i < s.length := hp i rfl
      cases hcell : s[i]? with
      | none =>
        rw [searchH_cons_dangling (by rw [List.getElem?_append_left hi]; exact hcell),
          searchH_cons_dangling hcell]
      | some cell =>
        cases hlk : lookupChild cell.children k with
        | none =>
          rw [searchH_cons_notfound (by rw [List.getElem?_append_left hi]; exact hcell) hlk,
            searchH_cons_notfound hcell hlk]
        | some sp =>
          rw [searchH_cons_found (by rw [List.getElem?_append_left hi]; exact hcell) hlk rest t,
            searchH_cons_found hcell hlk rest t]
          refine ih sp ?_ t
          intro j hj
          subst hj
          exact lt_trans (hC i cell hcell k j (lookupChild_mem hlk)) hi

theorem insertAuxH_nil_cell {t : Ty} {x : Val t} {s : List (HeapNode Ty Val)}
    {cur : Option Nat} {c : HeapNode Ty Val} (h : cur.bind (fun i => s[i]?) = some c) :
    insertAuxH t x [] s cur = (s ++ [HeapNode.valueNode c.children t x], s.length) := by
  simp only [insertAuxH, h]

theorem insertAuxH_nil_null {t : Ty} {x : Val t} {s : List (HeapNode Ty Val)}
    {cur : Option Nat} (h : cur.bind (fun i => s[i]?) = none) :
    insertAuxH t x [] s cur = (s ++ [HeapNode.valueNode [] t x], s.length) := by
  simp only [insertAuxH, h]

theorem insertAuxH_cons (t : Ty) (x : Val t) (k : Char) (rest : List Char)
    (s : List (HeapNode Ty Val)) (cur : Option Nat) :
    insertAuxH t x (k :: rest) s cur =
      ((insertAuxH t x rest s (insertCurNext s cur k)).1 ++
        [insertStep k (insertAuxH t x rest s (insertCurNext s cur k)).1 cur
          (insertAuxH t x rest s (insertCurNext s cur k)).2],
       (insertAuxH t x rest s (insertCurNext s cur k)).1.length) := rfl

/-- The insert lambda only appends cells to the store: every pre-existing
cell keeps its index and contents ("no node of the input version is
mutated"). -/
theorem insertAuxH_append (t : Ty) (x : Val t) :
    ∀ (key : List Char) (s : List (HeapNode Ty Val)) (cur : Option Nat),
      ∃ ext, (insertAuxH t x key s cur).1 = s ++ ext := by
  intro key
  induction key with
  | nil =>
    intro s cur
    cases h : cur.bind (fun i => s[i]?) with
    | none => exact ⟨_, by rw [insertAuxH_nil_null h]⟩
    | some c => exact ⟨_, by rw [insertAuxH_nil_cell h]⟩
  | cons k rest ih =>
    intro s cur
    rcases ih s (insertCurNext s cur k) with ⟨e1, he1⟩
    refine ⟨e1 ++ [insertStep k (insertAuxH t x rest s (insertCurNext s cur k)).1 cur
      (insertAuxH t x rest s (insertCurNext s cur k)).2], ?_⟩
    rw [insertAuxH_cons, he1, List.append_assoc]

theorem removeAuxH_nil_dangling {s : List (HeapNode Ty Val)} {cur : Option Nat}
    (h : cur.bind (fun i => s[i]?) = none) :
    removeAuxH ([] : List Char) s cur = (.error () : Except Unit (List (HeapNode Ty Val) × Option Nat)) := by
  simp only [removeAuxH, h]

theorem removeAuxH_nil_cell {s : List (HeapNode Ty Val)} {cur : Option Nat}
    {c : HeapNode Ty Val} (h : cur.bind (fun i => s[i]?) = some c) :
    removeAuxH ([] : List Char) s cur =
      .ok (s ++ [HeapNode.plain c.children], some s.length) := by
  simp only [removeAuxH, h]

theorem removeAuxH_cons_dangling {s : List (HeapNode Ty Val)} {cur : Option Nat}
    {k : Char} {rest : List Char} (h : cur.bind (fun i => s[i]?) = none) :
    removeAuxH (k :: rest) s cur = .error () := by
  simp only [removeAuxH, h]

theorem removeAuxH_cons_lookup_none {s : List (HeapNode Ty Val)} {cur : Option Nat}
    {c : HeapNode Ty Val} {k : Char} {rest : List Char}
    (h : cur.bind (fun i => s[i]?) = some c) (hlk : lookupChild c.children k = none) :
    removeAuxH (k :: rest) s cur = .ok (s, none) := by
  simp only [removeAuxH, h, hlk]

theorem removeAuxH_cons_rec_error {s : List (HeapNode Ty Val)} {cur : Option Nat}
    {c : HeapNode Ty Val} {k : Char} {rest : List Char} {sp : Option Nat} {e : Unit}
    (h : cur.bind (fun i => s[i]?) = some c) (hlk : lookupChild c.children k = some sp)
    (hrec : removeAuxH rest s sp = .error e) :
    removeAuxH (k :: rest) s cur = .error e := by
  simp only [removeAuxH, h, hlk, hrec]

theorem removeAuxH_cons_rec_none {s s1 : List (HeapNode Ty Val)} {cur : Option Nat}
    {c : HeapNode Ty Val} {k : Char} {rest : List Char} {sp : Option Nat}
    (h : cur.bind (fun i => s[i]?) = some c) (hlk : lookupChild c.children k = some sp)
    (hrec : removeAuxH rest s sp = .ok (s1, none)) :
    removeAuxH (k :: rest) s cur = .ok (s1, none) := by
  simp only [removeAuxH, h, hlk, hrec]

theorem removeAuxH_cons_rec_dangling {s s1 : List (HeapNode Ty Val)} {cur : Option Nat}
    {c : HeapNode Ty Val} {k : Char} {rest : List Char} {sp : Option Nat} {j : Nat}
    (h : cur.bind (fun i => s[i]?) = some c) (hlk : lookupChild c.children k = some sp)
    (hrec : removeAuxH rest s sp = .ok (s1, some j)) (hj : s1[j]? = none) :
    removeAuxH (k :: rest) s cur = .error () := by
  simp only [removeAuxH, h, hlk, hrec, hj]

theorem removeAuxH_cons_rec_dead {s s1 : List (HeapNode Ty Val)} {cur : Option Nat}
    {c nextCell : HeapNode Ty Val} {k : Char} {rest : List Char} {sp : Option Nat} {j : Nat}
    (h : cur.bind (fun i => s[i]?) = some c) (hlk : lookupChild c.children k = some sp)
    (hrec : removeAuxH rest s sp = .ok (s1, some j)) (hj : s1[j]? = some nextCell)
    (hd : (nextCell.children.isEmpty && !nextCell.isEndOfWord) = true) :
    removeAuxH (k :: rest) s cur =
      .ok (s1 ++ [heapWithChildren c.copy (eraseChild c.copy.children k)],
        some s1.length) := by
  simp only [removeAuxH, h, hlk, hrec, hj, hd, if_pos]

theorem removeAuxH_cons_rec_live {s s1 : List (HeapNode Ty Val)} {cur : Option Nat}
    {c nextCell : HeapNode Ty Val} {k : Char} {rest : List Char} {sp : Option Nat} {j : Nat}
    (h : cur.bind (fun i => s[i]?) = some c) (hlk : lookupChild c.children k = some sp)
    (hrec : removeAuxH rest s sp = .ok (s1, some j)) (hj : s1[j]? = some nextCell)
    (hd : ¬((nextCell.children.isEmpty && !nextCell.isEndOfWord) = true)) :
    removeAuxH (k :: rest) s cur =
      .ok (s1 ++ [heapWithChildren c.copy (setChild c.copy.children k (some j))],
        some s1.length) := by
  simp only [removeAuxH, h, hlk, hrec, hj]
  rw [if_neg hd]

/-- The remove lambda only appends cells to the store. -/
theorem removeAuxH_append :
    ∀ (key : List Char) (s : List (HeapNode Ty Val)) (cur : Option Nat)
      (s' : List (HeapNode Ty Val)) (p' : Option Nat),
      removeAuxH key s cur = .ok (s', p') → ∃ ext, s' = s ++ ext := by
  intro key
  induction key with
  | nil =>
    intro s cur s' p' hok
    cases h : cur.bind (fun i => s[i]?) with
    | none => rw [removeAuxH_nil_dangling h] at hok; cases hok
    | some c =>
      rw [removeAuxH_nil_cell h] at hok
      cases hok
      exact ⟨_, rfl⟩
  | cons k rest ih =>
    intro s cur s' p' hok
    cases h : cur.bind (fun i => s[i]?) with
    | none => rw [removeAuxH_cons_dangling h] at hok; cases hok
    | some c =>
      cases hlk : lookupChild c.children k with
      | none =>
        rw [removeAuxH_cons_lookup_none h hlk] at hok
        cases hok
        exact ⟨[], (List.append_nil s).symm⟩
      | some sp =>
        cases hrec : removeAuxH rest s sp with
        | error e => rw [removeAuxH_cons_rec_error h hlk hrec] at hok; cases hok
        | ok res =>
          obtain ⟨s1, p1⟩ := res
          rcases ih s sp s1 p1 hrec with ⟨e1, he1⟩
          cases p1 with
          | none =>
            rw [removeAuxH_cons_rec_none h hlk hrec] at hok
            cases hok
            exact ⟨e1, he1⟩
          | some j =>
            cases hj : s1[j]? with
            | none => rw [removeAuxH_cons_rec_dangling h hlk hrec hj] at hok; cases hok
            | some nextCell =>
              by_cases hd : (nextCell.children.isEmpty && !nextCell.isEndOfWord) = true
              · rw [removeAuxH_cons_rec_dead h hlk hrec hj hd] at hok
                cases hok
                exact ⟨e1 ++ [heapWithChildren c.copy (eraseChild c.copy.children k)],
                  by rw [he1, List.append_assoc]⟩
              · rw [removeAuxH_cons_rec_live h hlk hrec hj hd] at hok
                cases hok
                exact ⟨e1 ++ [heapWithChildren c.copy (setChild c.copy.children k (some j))],
                  by rw [he1, List.append_assoc]⟩

theorem removeH_none_root (s : List (HeapNode Ty Val)) (key : List Char) :
    removeH s none key = .ok (s, none) := rfl

/-- `Trie::remove` against a store only appends cells to the store. -/
theorem removeH_append {s : List (HeapNode Ty Val)} {root : Option Nat}
    {key : List Char} {s' : List (HeapNode Ty Val)} {p' : Option Nat}
    (hok : removeH s root key = .ok (s', p')) : ∃ ext, s' = s ++ ext := by
  cases root with
  | none =>
    rw [removeH_none_root] at hok
    cases hok
    exact ⟨[], (List.append_nil s).symm⟩
  | some r =>
    rw [removeH] at hok
    cases hrec : removeAuxH key s (some r) with
    | error e =>
      simp only [hrec] at hok
      cases hok
    | ok res =>
      obtain ⟨s1, p1⟩ := res
      rcases removeAuxH_append key s (some r) s1 p1 hrec with ⟨e1, he1⟩
      cases p1 with
      | none =>
        simp only [hrec] at hok
        cases hok
        exact ⟨e1, he1⟩
      | some i =>
        cases hj : s1[i]? with
        | none =>
          simp only [hrec, hj] at hok
          cases hok
        | some cell =>
          by_cases hd : (cell.children.isEmpty && !cell.isEndOfWord) = true
          · simp only [hrec, hj, hd, if_pos] at hok
            cases hok
            exact ⟨e1, he1⟩
          · simp only [hrec, hj] at hok
            rw [if_neg hd] at hok
            cases hok
            exact ⟨e1, he1⟩

end HeapLemmas

/-! ## Claim theorems -/

/-- Claim C1: for every version `v`, every key (any finite character
sequence), and every value `x` of any type `t`, searching the key at type
`t` in `Trie.insert v key t x` returns `x`.  The quantification over `v`
includes versions in which the key already held a value, possibly of a
different type: that value is silently overwritten. -/
theorem insert_then_search_finds {Ty : Type} {Val : Ty → Type} [DecidableEq Ty]
    (v : Trie Ty Val) (key : List Char) (t : Ty) (x : Val t) :
    (v.insert key t x).search key t = some x :=
  nodeSearch_insertAux_self t x key v.root

/-- Claim C2: in the version returned by a successful `Trie.remove v key`
(on a well-formed version), the removed key is not found at any requested
type, while every other key — including keys strictly extending the removed
one — searches exactly as in `v`. -/
theorem remove_found_and_frame {Ty : Type} {Val : Ty → Type} [DecidableEq Ty]
    (v w : Trie Ty Val) (key : List Char) (hwf : WFT v)
    (hok : Trie.remove v key = .ok w) :
    (∀ t, w.search key t = none) ∧
    (∀ key2, key2 ≠ key → ∀ t, w.search key2 t = v.search key2 t) := by
  obtain ⟨root⟩ := v
  cases root with
  | none =>
    rw [trieRemove_none_root] at hok
    cases hok
    exact ⟨fun t => nodeSearch_none key t, fun key2 _ t => rfl⟩
  | some r =>
    have hr := hwf r rfl
    have hr' : ∀ m, (some r : Option (TrieNode Ty Val)) = some m → WFN m :=
      fun m hm => by cases hm; exact hr
    cases hrec : removeAux key (some r) with
    | error e => rw [trieRemove_some_error hrec] at hok; cases hok
    | ok res =>
      cases res with
      | none =>
        rw [trieRemove_some_none hrec] at hok
        cases hok
        constructor
        · intro t
          rw [trie_search_def]
          exact (removeAux_search key (some r) hr' none hrec t).1 rfl
        · intro key2 _ t
          rfl
      | some n =>
        have hsn : ∀ t : Ty, nodeSearch (some n) key t = none :=
          fun t => (removeAux_search key (some r) hr' _ hrec t).2 n rfl
        have hfr : ∀ key2, key2 ≠ key → ∀ t : Ty,
            nodeSearch (some n) key2 t = nodeSearch (some r) key2 t :=
          fun key2 hne t => removeAux_frame key key2 hne (some r) n hr' hrec t
        by_cases hd : (n.children.isEmpty && !n.isEndOfWord) = true
        · rw [trieRemove_some_dead hrec hd] at hok
          cases hok
          rcases (dead_cond_iff n).mp hd with ⟨hdc, hde⟩
          constructor
          · intro t
            exact nodeSearch_none key t
          · intro key2 hne t
            rw [trie_search_def, trie_search_def]
            calc nodeSearch (none : Option (TrieNode Ty Val)) key2 t
                = none := nodeSearch_none key2 t
              _ = nodeSearch (some n) key2 t := (nodeSearch_dead hdc hde key2 t).symm
              _ = nodeSearch (some r) key2 t := hfr key2 hne t
        · rw [trieRemove_some_live hrec hd] at hok
          cases hok
          constructor
          · intro t
            rw [trie_search_def]
            exact hsn t
          · intro key2 hne t
            rw [trie_search_def, trie_search_def]
            exact hfr key2 hne t

/-- Witness for C2 on a concrete version: removing the single stored key
of `insert empty "a" 5` succeeds with the empty version, under which the key
is gone and every other key is unchanged. -/
theorem remove_found_and_frame_witness :
    WFT (Trie.insert (Trie.empty : Trie TyN ValN) ['a'] 0 5) ∧
    Trie.remove (Trie.insert (Trie.empty : Trie TyN ValN) ['a'] 0 5) ['a'] =
      .ok (⟨none⟩ : Trie TyN ValN) ∧
    ((∀ t, (⟨none⟩ : Trie TyN ValN).search ['a'] t = none) ∧
     (∀ key2, key2 ≠ ['a'] → ∀ t, (⟨none⟩ : Trie TyN ValN).search key2 t =
        (Trie.insert (Trie.empty : Trie TyN ValN) ['a'] 0 5).search key2 t)) :=
  ⟨wft_insert wft_empty ['a'] 0 5, rfl,
    remove_found_and_frame _ _ ['a'] (wft_insert wft_empty ['a'] 0 5) rfl⟩

/-- Claim C3: a key holding a value of type `u` searches as absent at every
requested type `t ≠ u` (the failed `dynamic_cast` behaves exactly like a
missing key), and values of independently chosen types at two different keys
of the same version are each retrievable at their own type. -/
theorem search_type_safety {Ty : Type} {Val : Ty → Type} [DecidableEq Ty]
    (v : Trie Ty Val) (key k1 k2 : List Char) (u t t1 t2 : Ty) (x : Val u)
    (x1 : Val t1) (x2 : Val t2) (hne : t ≠ u) (hk : k1 ≠ k2) :
    (v.search key u = some x → v.search key t = none) ∧
    (((v.insert k1 t1 x1).insert k2 t2 x2).search k1 t1 = some x1 ∧
     ((v.insert k1 t1 x1).insert k2 t2 x2).search k2 t2 = some x2) := by
  constructor
  · intro hfound
    rw [trie_search_def] at hfound ⊢
    cases hsl : searchLoop v.root key with
    | none =>
      simp only [nodeSearch, hsl] at hfound
      cases hfound
    | some n =>
      simp only [nodeSearch, hsl] at hfound ⊢
      cases n with
      | plain cs => simp at hfound
      | valueNode cs u' v' =>
        rw [isEndOfWord_valueNode] at hfound ⊢
        rw [if_pos rfl] at hfound ⊢
        by_cases hu : u' = u
        · subst hu
          exact castValue_ne cs v' (fun h => hne h.symm)
        · rw [castValue_ne cs v' hu] at hfound
          cases hfound
  · constructor
    · have h2 : ((v.insert k1 t1 x1).insert k2 t2 x2).search k1 t1 =
          (v.insert k1 t1 x1).search k1 t1 :=
        nodeSearch_insertAux_frame t2 x2 k2 k1 hk (v.insert k1 t1 x1).root t1
      rw [h2]
      exact nodeSearch_insertAux_self t1 x1 k1 v.root
    · exact nodeSearch_insertAux_self t2 x2 k2 (v.insert k1 t1 x1).root

/-- Witness for C3 with two concrete type tags: tag `0` stored at key "a"
and tag `1` stored at key "b"; the wrong tag at "a" is not found, the right
tags are. -/
theorem search_type_safety_witness :
    (1 : TyN) ≠ 0 ∧ (['a'] : List Char) ≠ ['b'] ∧
    (((Trie.insert (Trie.empty : Trie TyN ValN) ['a'] 0 5).search ['a'] 0 = some 5 →
        (Trie.insert (Trie.empty : Trie TyN ValN) ['a'] 0 5).search ['a'] 1 = none) ∧
     ((((Trie.empty : Trie TyN ValN).insert ['a'] 0 5).insert ['b'] 1 7).search ['a'] 0 =
          some 5 ∧
      (((Trie.empty : Trie TyN ValN).insert ['a'] 0 5).insert ['b'] 1 7).search ['b'] 1 =
          some 7)) :=
  ⟨by decide, by decide,
    search_type_safety (Trie.insert (Trie.empty : Trie TyN ValN) ['a'] 0 5)
      ['a'] ['a'] ['b'] 0 1 0 1 5 5 7 (by decide) (by decide)⟩

/-- Claim C4, counterexample to the claim as stated.  The claim requires
`remove` of an absent key to return a version with the same root as the
input ("same root reference — no new nodes should be retained").  The code
honours this only when the descent stops at a missing edge (line 152
returns `Trie(this->root)`); when the absent key's full edge path exists the
recursion completes, line 122 builds a fresh terminal node, line 126 clones
every ancestor, and line 154 returns the freshly allocated root.  In the
identity-aware heap model: the version `insert(empty, "ab", 5)` occupies
cells 0–2 of the store with root index 2, the key `"a"` searches as
not-found at every type, yet `removeH` returns root index 4 — not the input
root 2 — with two newly retained cells appended to the store. -/
theorem remove_absent_noop_counterexample :
    insertAuxH (0 : TyN) (5 : ValN 0) ['a', 'b'] [] none =
      ([HeapNode.valueNode [] 0 5, HeapNode.plain [('b', some 0)],
        HeapNode.plain [('a', some 1)]], 2) ∧
    (∀ t : TyN, searchH ([HeapNode.valueNode [] 0 5, HeapNode.plain [('b', some 0)],
        HeapNode.plain [('a', some 1)]] : List (HeapNode TyN ValN)) (some 2) ['a'] t =
          none) ∧
    removeH ([HeapNode.valueNode [] 0 5, HeapNode.plain [('b', some 0)],
        HeapNode.plain [('a', some 1)]] : List (HeapNode TyN ValN)) (some 2) ['a'] =
      .ok ([HeapNode.valueNode [] 0 5, HeapNode.plain [('b', some 0)],
            HeapNode.plain [('a', some 1)], HeapNode.plain [('b', some 0)],
            HeapNode.plain [('a', some 3)]], some 4) ∧
    (some 4 ≠ (some 2 : Option Nat)) :=
  ⟨rfl, fun _ => rfl, rfl, by decide⟩

/-- Claim C4 as amended: removing a key that is absent (searches as
not-found at every requested type) from a well-formed version returns a
version equal to the input as a value — node for node, value for value — so
every search is unchanged.  The root is the identical reference only when
the descent stops at a missing edge; when the absent key's full edge path
exists the code returns a freshly allocated but structurally identical root
(see the counterexample above), so the equality proved here is structural
equality of versions, which is exactly the behavioral no-op the spec's
testable property states. -/
theorem remove_absent_noop {Ty : Type} {Val : Ty → Type} [DecidableEq Ty]
    (v : Trie Ty Val) (key : List Char) (hwf : WFT v)
    (habs : ∀ t, v.search key t = none) :
    Trie.remove v key = .ok v ∧
    (∀ w, Trie.remove v key = .ok w → ∀ key2 t, w.search key2 t = v.search key2 t) := by
  have h1 : Trie.remove v key = .ok v := by
    obtain ⟨root⟩ := v
    cases root with
    | none => exact trieRemove_none_root key
    | some r =>
      have hr := hwf r rfl
      rcases removeAux_noop key r hr (fun t => habs t) with hrec | hrec
      · exact trieRemove_some_none hrec
      · exact trieRemove_some_live hrec (not_dead_of_alive (wfn_alive hr))
  refine ⟨h1, ?_⟩
  intro w hw key2 t
  rw [h1] at hw
  cases hw
  rfl

/-- Witness for the amended C4: removing the absent key "b" from
`insert empty "a" 5` returns a version equal to the input. -/
theorem remove_absent_noop_witness :
    WFT (Trie.insert (Trie.empty : Trie TyN ValN) ['a'] 0 5) ∧
    (∀ t, (Trie.insert (Trie.empty : Trie TyN ValN) ['a'] 0 5).search ['b'] t = none) ∧
    (Trie.remove (Trie.insert (Trie.empty : Trie TyN ValN) ['a'] 0 5) ['b'] =
        .ok (Trie.insert (Trie.empty : Trie TyN ValN) ['a'] 0 5) ∧
     (∀ w, Trie.remove (Trie.insert (Trie.empty : Trie TyN ValN) ['a'] 0 5) ['b'] =
          .ok w → ∀ key2 t, w.search key2 t =
            (Trie.insert (Trie.empty : Trie TyN ValN) ['a'] 0 5).search key2 t)) :=
  ⟨wft_insert wft_empty ['a'] 0 5, fun _ => rfl,
    remove_absent_noop _ ['b'] (wft_insert wft_empty ['a'] 0 5) (fun _ => rfl)⟩

/-- Claim C5: in every version reachable from the empty version by `insert`
and (successful) `remove` operations, no reachable node is dead: every
reachable node has nonempty children or is an end of key.  In particular the
only representation of an empty map is a null root: a removal that empties
the root yields the null root rather than retaining a dead node. -/
theorem no_dead_nodes {Ty : Type} {Val : Ty → Type} (v : Trie Ty Val)
    (hr : Reachable v) (n : TrieNode Ty Val) (hn : ReachN v n) :
    n.children ≠ [] ∨ n.isEndOfWord = true :=
  wfn_alive (wfn_of_reachN (reachable_wft hr) hn)

/-- Witness for C5 on a concrete reachable version. -/
theorem no_dead_nodes_witness :
    Reachable (Trie.insert (Trie.empty : Trie TyN ValN) ['a', 'b'] 0 5) ∧
    (∀ n, ReachN (Trie.insert (Trie.empty : Trie TyN ValN) ['a', 'b'] 0 5) n →
      n.children ≠ [] ∨ n.isEndOfWord = true) :=
  ⟨Reachable.ins Trie.empty ['a', 'b'] 0 5 Reachable.empty,
    fun n hn => no_dead_nodes _
      (Reachable.ins Trie.empty ['a', 'b'] 0 5 Reachable.empty) n hn⟩

/-- Claim C6: `insert` changes the version only along the inserted key's
path: every other key — including longer keys sharing a prefix with the
inserted one, whose subtrees are carried over by the per-level clone —
searches exactly as before, in any version. -/
theorem insert_frame {Ty : Type} {Val : Ty → Type} [DecidableEq Ty]
    (v : Trie Ty Val) (key key2 : List Char) (t t2 : Ty) (x : Val t)
    (hne : key2 ≠ key) :
    (v.insert key t x).search key2 t2 = v.search key2 t2 :=
  nodeSearch_insertAux_frame t x key key2 hne v.root t2

/-- Witness for C6: inserting at "a" in a version holding "ab" leaves the
longer key "ab" (which extends the inserted key) searching unchanged. -/
theorem insert_frame_witness :
    (['a', 'b'] : List Char) ≠ ['a'] ∧
    ((Trie.insert (Trie.empty : Trie TyN ValN) ['a', 'b'] 0 9).insert
        ['a'] 1 7).search ['a', 'b'] 0 =
      (Trie.insert (Trie.empty : Trie TyN ValN) ['a', 'b'] 0 9).search ['a', 'b'] 0 :=
  ⟨by decide,
    insert_frame (Trie.insert (Trie.empty : Trie TyN ValN) ['a', 'b'] 0 9)
      ['a'] ['a', 'b'] 1 0 7 (by decide)⟩

/-- Claim C7: `insert` and `remove` never mutate a node of the input
version.  In the store-indexed model this is literal: both operations only
append cells to the store (every pre-existing cell keeps its index and
contents), and consequently every search against the input version's root,
for any key and any requested type, returns exactly what it returned before
the call. -/
theorem version_immutable {Ty : Type} {Val : Ty → Type} [DecidableEq Ty]
    (s : List (HeapNode Ty Val)) (root : Option Nat) (key : List Char)
    (t : Ty) (x : Val t) (key2 : List Char) (t2 : Ty)
    (hC : HClosed s) (hp : HPtrOk s root) :
    ((∃ ext, (insertAuxH t x key s root).1 = s ++ ext) ∧
      searchH (insertAuxH t x key s root).1 root key2 t2 = searchH s root key2 t2) ∧
    (∀ s' p', removeH s root key = .ok (s', p') →
      (∃ ext, s' = s ++ ext) ∧ searchH s' root key2 t2 = searchH s root key2 t2) := by
  constructor
  · rcases insertAuxH_append t x key s root with ⟨ext, hext⟩
    refine ⟨⟨ext, hext⟩, ?_⟩
    rw [hext]
    exact searchH_append ext hC key2 root hp t2
  · intro s' p' hok
    rcases removeH_append hok with ⟨ext, hext⟩
    refine ⟨⟨ext, hext⟩, ?_⟩
    rw [hext]
    exact searchH_append ext hC key2 root hp t2

/-- Witness for C7 on a concrete one-cell store. -/
theorem version_immutable_witness :
    HClosed [HeapNode.valueNode ([] : List (Char × Option Nat)) (0 : TyN) (7 : ValN 0)] ∧
    HPtrOk [HeapNode.valueNode ([] : List (Char × Option Nat)) (0 : TyN) (7 : ValN 0)]
      (some 0) ∧
    (((∃ ext, (insertAuxH (1 : TyN) (5 : ValN 1) ['a']
          [HeapNode.valueNode [] (0 : TyN) (7 : ValN 0)] (some 0)).1 =
            [HeapNode.valueNode [] (0 : TyN) (7 : ValN 0)] ++ ext) ∧
       searchH (insertAuxH (1 : TyN) (5 : ValN 1) ['a']
           [HeapNode.valueNode [] (0 : TyN) (7 : ValN 0)] (some 0)).1 (some 0) [] 0 =
         searchH [HeapNode.valueNode [] (0 : TyN) (7 : ValN 0)] (some 0) [] 0) ∧
     (∀ s' p', removeH [HeapNode.valueNode [] (0 : TyN) (7 : ValN 0)] (some 0) ['a'] =
          .ok (s', p') →
        (∃ ext, s' = [HeapNode.valueNode [] (0 : TyN) (7 : ValN 0)] ++ ext) ∧
        searchH s' (some 0) [] 0 =
          searchH [HeapNode.valueNode [] (0 : TyN) (7 : ValN 0)] (some 0) [] 0)) := by
  have hC : HClosed [HeapNode.valueNode ([] : List (Char × Option Nat)) (0 : TyN)
      (7 : ValN 0)] := by
    intro i cell hi c j hj
    cases i with
    | zero =>
      simp at hi
      rw [← hi] at hj
      simp at hj
    | succ m => simp at hi
  have hp : HPtrOk [HeapNode.valueNode ([] : List (Char × Option Nat)) (0 : TyN)
      (7 : ValN 0)] (some 0) := by
    intro i h
    cases h
    decide
  exact ⟨hC, hp, version_immutable _ (some 0) ['a'] 1 5 [] 0 hC hp⟩

/-- Claim C8: the empty key is a genuine storage location, distinct from
key-absence: inserting at the empty key makes it found with the inserted
value, the empty version does not hold it, and inserting at any nonempty key
never affects it. -/
theorem empty_key_slot {Ty : Type} {Val : Ty → Type} [DecidableEq Ty]
    (v : Trie Ty Val) (t t2 t3 : Ty) (x : Val t) (key : List Char) (x2 : Val t2)
    (hk : key ≠ []) :
    (v.insert [] t x).search [] t = some x ∧
    (Trie.empty : Trie Ty Val).search [] t3 = none ∧
    (v.insert key t2 x2).search [] t3 = v.search [] t3 :=
  ⟨nodeSearch_insertAux_self t x [] v.root, rfl,
    nodeSearch_insertAux_frame t2 x2 key [] (fun h => hk h.symm) v.root t3⟩

/-- Witness for C8 at a concrete nonempty key. -/
theorem empty_key_slot_witness :
    (['a'] : List Char) ≠ [] ∧
    (((Trie.empty : Trie TyN ValN).insert [] 0 5).search [] 0 = some 5 ∧
     (Trie.empty : Trie TyN ValN).search [] 1 = none ∧
     ((Trie.empty : Trie TyN ValN).insert ['a'] 0 7).search [] 1 =
       (Trie.empty : Trie TyN ValN).search [] 1) :=
  ⟨by decide, empty_key_slot Trie.empty 0 0 1 5 ['a'] 7 (by decide)⟩

/-- Claim C9: the shallow clone `copy` of every node (plain `TrieNode` or
`TrieValueNode`) has the same children map, the same end-of-key flag, and
the same stored value (with its type tag) when one is present. -/
theorem copy_shallow_clone {Ty : Type} {Val : Ty → Type} (n : TrieNode Ty Val) :
    n.copy.children = n.children ∧ n.copy.isEndOfWord = n.isEndOfWord ∧
    n.copy.nodeValue = n.nodeValue := by
  cases n with
  | plain cs => exact ⟨rfl, rfl, rfl⟩
  | valueNode cs t v => exact ⟨rfl, rfl, rfl⟩

/-- Claim C10: in every reachable version, every entry of every reachable
node's children map is a non-null pointer; consequently the remove lambda —
which dereferences the current node (clone at inner depths, children read at
the terminal depth) before checking whether the next edge exists — never
dereferences null, and `Trie.remove` is total (never `.error`) on reachable
versions. -/
theorem children_nonnull_remove_total {Ty : Type} {Val : Ty → Type}
    (v : Trie Ty Val) (hr : Reachable v) :
    (∀ n, ReachN v n → ∀ (c : Char) (sp : Option (TrieNode Ty Val)),
      (c, sp) ∈ n.children → ∃ m, sp = some m) ∧
    (∀ key, ∃ w, Trie.remove v key = .ok w) := by
  have hwf := reachable_wft hr
  constructor
  · intro n hn c sp hmem
    have hwn := wfn_of_reachN hwf hn
    cases sp with
    | none => exact absurd hmem (wfn_nonnull hwn c)
    | some m => exact ⟨m, rfl⟩
  · intro key
    exact trie_remove_total hwf key

/-- Witness for C10 on a concrete reachable version. -/
theorem children_nonnull_remove_total_witness :
    Reachable (Trie.insert (Trie.empty : Trie TyN ValN) ['a', 'b'] 0 5) ∧
    ((∀ n, ReachN (Trie.insert (Trie.empty : Trie TyN ValN) ['a', 'b'] 0 5) n →
        ∀ (c : Char) (sp : Option (TrieNode TyN ValN)),
          (c, sp) ∈ n.children → ∃ m, sp = some m) ∧
     (∀ key, ∃ w,
        Trie.remove (Trie.insert (Trie.empty : Trie TyN ValN) ['a', 'b'] 0 5) key =
          .ok w)) :=
  ⟨Reachable.ins Trie.empty ['a', 'b'] 0 5 Reachable.empty,
    children_nonnull_remove_total _
      (Reachable.ins Trie.empty ['a', 'b'] 0 5 Reachable.empty)⟩

end PersistentTrie
